import Mathlib

/-!
Verification of the miniC optimization core (part3: optimizer.cpp, driver.cpp)

A shallow embedding of the LLVM-C based optimization passes of the repository:
dead code elimination, constant folding, intra-block common subexpression
elimination, the GEN/KILL reaching-store analysis, and the pass driver loop.

Modelling conventions:
* `LLVMValueRef` identity (pointer equality) is modelled by giving every
  instruction a numeric `id`; an instruction's result value is `Value.inst id`.
* LLVM constants are interned per (type, bits), so pointer equality of two
  constants coincides with structural equality of `Value.const width bits`.
* Use lists are derived: the use count of an instruction is the number of
  operand slots over the whole module holding its result value, matching the
  bidirectional use-edge invariant (`LLVMGetFirstUse(i) == NULL` iff 0 uses).
* C++ `unordered_set` values are modelled as lists and reasoned about up to
  membership.
* `LLVMConstAdd/Sub/Mul` perform two's-complement wraparound at the operand
  width; applying them to constants of different widths is ill-typed IR
  (undefined behaviour in the source), modelled as a fold that does not fire.
-/

namespace MiniC

/-- LLVM opcodes relevant to the passes.  `other` stands for any further
non-terminator, non-side-effecting opcode (comparisons, casts, ...). -/
inductive Opcode where
  | ret | br | switch | indirectbr | invoke | unreachable
  | store | call | alloca | fence | atomicCmpXchg | atomicRMW
  | add | sub | mul | load
  | other
deriving DecidableEq, Repr

/-- `LLVMIsATerminatorInst`. -/
def isTerminator : Opcode → Bool
  | .ret | .br | .switch | .indirectbr | .invoke | .unreachable => true
  | _ => false

/-- An operand value: an interned constant (width, bit pattern), the result of
the instruction with the given identity, or a function parameter. -/
inductive Value where
  | const (width : Nat) (bits : Nat)
  | inst (id : Nat)
  | param (id : Nat)
deriving DecidableEq, Repr

/-- `LLVMIsConstant`. -/
def isConstant : Value → Bool
  | .const _ _ => true
  | _ => false

/-- An instruction: a pointer identity, an opcode and an ordered operand list. -/
structure Instruction where
  id : Nat
  opcode : Opcode
  operands : List Value
deriving DecidableEq, Repr

abbrev BasicBlock := List Instruction
abbrev Func := List BasicBlock
abbrev Module := List Func

/-! ## Graph-model primitives -/

/-- Replace the element at index `i` (out-of-range indices leave the list
unchanged). -/
def updAt (f : α → α) : Nat → List α → List α
  | _, [] => []
  | 0, x :: xs => f x :: xs
  | n + 1, x :: xs => x :: updAt f n xs

/-- The instructions of a module in program order. -/
def allInstrs (m : Module) : List Instruction :=
  (m.map (fun f => f.flatten)).flatten

/-- The identities of all instructions of a module. -/
def allIds (m : Module) : List Nat :=
  (allInstrs m).map (·.id)

/-- The basic block at function index `fi`, block index `bi` (empty if out of
range). -/
def blockAt (m : Module) (fi bi : Nat) : BasicBlock :=
  ((m[fi]?).bind (fun f => f[bi]?)).getD []

/-- The instruction at position `(fi, bi, ii)`. -/
def instrAt (m : Module) (fi bi ii : Nat) : Option Instruction :=
  (blockAt m fi bi)[ii]?

/-- Rewrite the block at `(fi, bi)`. -/
def updBlock (m : Module) (fi bi : Nat) (g : BasicBlock → BasicBlock) : Module :=
  updAt (fun f => updAt g bi f) fi m

/-- `LLVMInstructionEraseFromParent` on the instruction at `(fi, bi, ii)`. -/
def eraseInstrAt (m : Module) (fi bi ii : Nat) : Module :=
  updBlock m fi bi (fun blk => blk.eraseIdx ii)

/-- Operand rewriting step of `LLVMReplaceAllUsesWith`. -/
def subst (old new v : Value) : Value :=
  if v = old then new else v

/-- `subst` lifted to one instruction. -/
def rauwInst (old new : Value) (ins : Instruction) : Instruction :=
  { ins with operands := ins.operands.map (subst old new) }

/-- `LLVMReplaceAllUsesWith old new`: rewrite every operand slot of the module
holding `old` to `new`. -/
def rauwModule (old new : Value) (m : Module) : Module :=
  m.map (fun f => f.map (fun b => b.map (rauwInst old new)))

/-- Number of use-edges of the instruction with identity `id`:
the number of operand slots of the module holding its result value. -/
def usesIn (m : Module) (id : Nat) : Nat :=
  ((allInstrs m).map (fun ins => ins.operands.count (Value.inst id))).sum

/-! ## Source helper functions (optimizer.cpp) -/

/-- `is_safe_to_delete`: false for terminators and side-effecting opcodes,
true for everything else. -/
def is_safe_to_delete (inst : Instruction) : Bool :=
  match inst.opcode with
  | .ret | .br | .switch | .indirectbr | .invoke | .unreachable => false
  | .store | .call | .alloca | .fence | .atomicCmpXchg | .atomicRMW => false
  | _ => true

/-- `instructions_equal`: same opcode, same operand count, identical operands
(by value identity) at every index. -/
def instructions_equal (inst1 inst2 : Instruction) : Bool :=
  inst1.opcode == inst2.opcode &&
  inst1.operands.length == inst2.operands.length &&
  inst1.operands == inst2.operands

/-- `LLVMIsAStoreInst`. -/
def is_store (inst : Instruction) : Bool :=
  inst.opcode == .store

/-- `get_store_address`: operand 1 of a store. -/
def get_store_address (inst : Instruction) : Option Value :=
  inst.operands[1]?

/-- `get_load_address`: operand 0 of a load. -/
def get_load_address (inst : Instruction) : Option Value :=
  inst.operands[0]?

/-- `is_constant_store`: a store whose stored value (operand 0) is a
constant. -/
def is_constant_store (inst : Instruction) : Bool :=
  is_store inst &&
  (match inst.operands[0]? with
   | some v => isConstant v
   | none => false)

/-- `stores_to_same_address`: pointer equality of the two address operands. -/
def stores_to_same_address (store1 store2 : Instruction) : Bool :=
  get_store_address store1 == get_store_address store2

/-! ## Constant arithmetic (`LLVMConstAdd` / `LLVMConstSub` / `LLVMConstMul`) -/

/-- Reduce an integer to its bit pattern at width `w` (two's-complement
wraparound). -/
def wrap (w : Nat) (z : Int) : Nat :=
  (z % ((2 : Int) ^ w)).toNat

/-- Signed reading of a bit pattern at width `w`. -/
def toSigned (w n : Nat) : Int :=
  if n < 2 ^ (w - 1) then (n : Int) else (n : Int) - 2 ^ w

/-- The abstract arithmetic of the three folded opcodes. -/
def opInt : Opcode → Int → Int → Int
  | .add, a, b => a + b
  | .sub, a, b => a - b
  | .mul, a, b => a * b
  | _, _, _ => 0

/-- The interned constant produced by `LLVMConstAdd/Sub/Mul` on two constants
of equal width (different widths are ill-typed IR, modelled as no fold). -/
def constFold (op : Opcode) (v1 v2 : Value) : Option Value :=
  match v1, v2 with
  | .const w a, .const w' b =>
      if w = w' then some (.const w (wrap w (opInt op (a : Int) (b : Int))))
      else none
  | _, _ => none

/-! ## Dead code elimination -/

/-- The instruction sweep of `dead_code_elimination` over one block:
`k` instructions remain to be visited, `idx` is the position of the next one
in the current block.  Erasing the current instruction leaves `idx` pointing
at its successor (the source captures `next_inst` before erasing). -/
def dce_block_go (fi bi : Nat) : Nat → Nat → Module → Bool → Module × Bool
  | 0, _, m, changed => (m, changed)
  | k + 1, idx, m, changed =>
    match instrAt m fi bi idx with
    | none => (m, changed)
    | some inst =>
      if usesIn m inst.id == 0 && is_safe_to_delete inst then
        dce_block_go fi bi k idx (eraseInstrAt m fi bi idx) true
      else
        dce_block_go fi bi k (idx + 1) m changed

/-- Block loop of `dead_code_elimination` over one function. -/
def dce_blocks_go (fi : Nat) : Nat → Nat → Module → Bool → Module × Bool
  | 0, _, m, changed => (m, changed)
  | nb + 1, bi, m, changed =>
    let r := dce_block_go fi bi (blockAt m fi bi).length 0 m changed
    dce_blocks_go fi nb (bi + 1) r.1 r.2

/-- Function loop of `dead_code_elimination`. -/
def dce_funcs_go : Nat → Nat → Module → Bool → Module × Bool
  | 0, _, m, changed => (m, changed)
  | nf + 1, fi, m, changed =>
    let r := dce_blocks_go fi ((m[fi]?).getD []).length 0 m changed
    dce_funcs_go nf (fi + 1) r.1 r.2

/-- `dead_code_elimination`: erase every visited instruction whose use list is
empty and whose opcode is safe to delete; report whether anything changed. -/
def dead_code_elimination (m : Module) : Module × Bool :=
  dce_funcs_go m.length 0 m false

/-! ## Constant folding -/

/-- The `const_result` the source computes for one instruction: the folded
interned constant when the instruction is an add/sub/mul whose operands 0 and 1
are both constants, and `none` (NULL) otherwise. -/
def cf_fold_result (inst : Instruction) : Option Value :=
  if inst.opcode == .add || inst.opcode == .sub || inst.opcode == .mul then
    match inst.operands[0]?, inst.operands[1]? with
    | some op1, some op2 =>
      if isConstant op1 && isConstant op2 then constFold inst.opcode op1 op2
      else none
    | _, _ => none
  else none

/-- The instruction sweep of `constant_folding` over one block. -/
def cf_block_go (fi bi : Nat) : Nat → Nat → Module → Bool → Module × Bool
  | 0, _, m, changed => (m, changed)
  | k + 1, idx, m, changed =>
    match instrAt m fi bi idx with
    | none => (m, changed)
    | some inst =>
      match cf_fold_result inst with
      | some c =>
        cf_block_go fi bi k (idx + 1) (rauwModule (.inst inst.id) c m) true
      | none => cf_block_go fi bi k (idx + 1) m changed

/-- Block loop of `constant_folding` over one function. -/
def cf_blocks_go (fi : Nat) : Nat → Nat → Module → Bool → Module × Bool
  | 0, _, m, changed => (m, changed)
  | nb + 1, bi, m, changed =>
    let r := cf_block_go fi bi (blockAt m fi bi).length 0 m changed
    cf_blocks_go fi nb (bi + 1) r.1 r.2

/-- Function loop of `constant_folding`. -/
def cf_funcs_go : Nat → Nat → Module → Bool → Module × Bool
  | 0, _, m, changed => (m, changed)
  | nf + 1, fi, m, changed =>
    let r := cf_blocks_go fi ((m[fi]?).getD []).length 0 m changed
    cf_funcs_go nf (fi + 1) r.1 r.2

/-- `constant_folding`: replace all uses of every add/sub/mul instruction with
two constant operands by the folded interned constant; the instruction itself
is left in place. -/
def constant_folding (m : Module) : Module × Bool :=
  cf_funcs_go m.length 0 m false

/-! ## Common subexpression elimination -/

/-- Opcodes that the pass never treats as a redundancy source (and, through
`instructions_equal`, never as a target either): call, store, alloca and
terminators. -/
def excludedA (op : Opcode) : Bool :=
  op == .call || op == .store || op == .alloca || isTerminator op

/-- The scan between a pair of equal loads at positions `i < j`: is there a
store to the load's address strictly between them? -/
def cse_scan_store (blk : BasicBlock) (i j : Nat) (addr : Option Value) : Bool :=
  match addr with
  | some a =>
    ((blk.drop (i + 1)).take (j - (i + 1))).any
      (fun ins => ins.opcode == .store && ins.operands[1]? == some a)
  | none => false

/-- Inner (B) loop of `common_subexpression_elimination` for the A at position
`ai`; `bj` is the position of the next candidate and `k` the number of
candidates left.  The trace accumulates, in order, every
`LLVMReplaceAllUsesWith(B, A)` the pass performs, as the pair (A, B) read at
that moment. -/
def cse_b_go (fi bi ai : Nat) :
    Nat → Nat → Module → Bool → List (Instruction × Instruction) →
    Module × Bool × List (Instruction × Instruction)
  | 0, _, m, changed, tr => (m, changed, tr)
  | k + 1, bj, m, changed, tr =>
    match instrAt m fi bi ai, instrAt m fi bi bj with
    | some ia, some ib =>
      if instructions_equal ia ib then
        if ia.opcode == .load &&
            cse_scan_store (blockAt m fi bi) ai bj (get_load_address ia) then
          cse_b_go fi bi ai k (bj + 1) m changed tr
        else
          cse_b_go fi bi ai k (bj + 1)
            (rauwModule (.inst ib.id) (.inst ia.id) m) true (tr ++ [(ia, ib)])
      else
        cse_b_go fi bi ai k (bj + 1) m changed tr
    | _, _ => (m, changed, tr)

/-- Outer (A) loop of `common_subexpression_elimination` over one block of
length `L`. -/
def cse_a_go (fi bi L : Nat) :
    Nat → Nat → Module → Bool → List (Instruction × Instruction) →
    Module × Bool × List (Instruction × Instruction)
  | 0, _, m, changed, tr => (m, changed, tr)
  | k + 1, ai, m, changed, tr =>
    match instrAt m fi bi ai with
    | none => (m, changed, tr)
    | some ia =>
      if excludedA ia.opcode then
        cse_a_go fi bi L k (ai + 1) m changed tr
      else
        let r := cse_b_go fi bi ai (L - (ai + 1)) (ai + 1) m changed tr
        cse_a_go fi bi L k (ai + 1) r.1 r.2.1 r.2.2

/-- Block loop of `common_subexpression_elimination` over one function. -/
def cse_blocks_go (fi : Nat) :
    Nat → Nat → Module → Bool → List (Instruction × Instruction) →
    Module × Bool × List (Instruction × Instruction)
  | 0, _, m, changed, tr => (m, changed, tr)
  | nb + 1, bi, m, changed, tr =>
    let L := (blockAt m fi bi).length
    let r := cse_a_go fi bi L L 0 m changed tr
    cse_blocks_go fi nb (bi + 1) r.1 r.2.1 r.2.2

/-- Function loop of `common_subexpression_elimination`. -/
def cse_funcs_go :
    Nat → Nat → Module → Bool → List (Instruction × Instruction) →
    Module × Bool × List (Instruction × Instruction)
  | 0, _, m, changed, tr => (m, changed, tr)
  | nf + 1, fi, m, changed, tr =>
    let r := cse_blocks_go fi ((m[fi]?).getD []).length 0 m changed tr
    cse_funcs_go nf (fi + 1) r.1 r.2.1 r.2.2

/-- `common_subexpression_elimination` together with the trace of all
performed (A, B) eliminations. -/
def cse_run (m : Module) : Module × Bool × List (Instruction × Instruction) :=
  cse_funcs_go m.length 0 m false []

/-- `common_subexpression_elimination` as in the source: module and changed
flag. -/
def common_subexpression_elimination (m : Module) : Module × Bool :=
  ((cse_run m).1, (cse_run m).2.1)

/-! ## Reaching-store analysis (`constant_propagation`) -/

/-- `GEN[B]`: fold over the block; each store removes earlier same-address
stores from the set and inserts itself. -/
def genOfBlock (blk : BasicBlock) : List Instruction :=
  blk.foldl
    (fun gen inst =>
      if is_store inst then
        (gen.filter (fun prev => !stores_to_same_address inst prev)) ++ [inst]
      else gen)
    []

/-- `all_stores`: every store instruction of the function, in program order. -/
def allStoresOf (f : Func) : List Instruction :=
  f.flatten.filter is_store

/-- `KILL[B]`: for every store `inst` of the block, every *other* store of the
function to the same address. -/
def killOfBlock (blk : BasicBlock) (allStores : List Instruction) :
    List Instruction :=
  blk.foldl
    (fun kill inst =>
      if is_store inst then
        kill ++ allStores.filter
          (fun o => o.id != inst.id && stores_to_same_address inst o)
      else kill)
    []

/-- The GEN/KILL tables the source computes and prints for one function. -/
def function_genkill (f : Func) : List (List Instruction × List Instruction) :=
  f.map (fun blk => (genOfBlock blk, killOfBlock blk (allStoresOf f)))

/-- `constant_propagation` with its diagnostic output: the source only derives
the per-block GEN/KILL tables (printed to stderr), never mutates the module
and never sets `changed`. -/
def constant_propagation_run (m : Module) :
    Module × Bool × List (List (List Instruction × List Instruction)) :=
  (m, false, m.map function_genkill)

/-- `constant_propagation` as in the source: module and changed flag. -/
def constant_propagation (m : Module) : Module × Bool :=
  ((constant_propagation_run m).1, (constant_propagation_run m).2.1)

/-! ## Pass driver (driver.cpp) -/

/-- One round of the driver: DCE, constant folding, CSE, constant propagation,
in that fixed order; the round is changed if any pass reports a change. -/
def driver_step (m : Module) : Module × Bool :=
  let d := dead_code_elimination m
  let f := constant_folding d.1
  let s := common_subexpression_elimination f.1
  let p := constant_propagation s.1
  (p.1, d.2 || f.2 || s.2 || p.2)

/-- The driver's `while (changed)` loop, with explicit fuel: the source has an
iteration counter but never consults it, so the loop has no round cap; `none`
means the given number of rounds did not reach a fixed point. -/
def driver_loop : Nat → Module → Option Module
  | 0, _ => none
  | n + 1, m =>
    let r := driver_step m
    if r.2 then driver_loop n r.1 else some r.1

/-! ## Concrete modules used by the claims -/

/-- A single-block function `[ store addr_a, 42; %1 = load addr_a; ret %1 ]`
(addresses are the first parameter). -/
def storeLoadModule : Module :=
  [[[⟨0, .store, [.const 32 42, .param 0]⟩,
     ⟨1, .load, [.param 0]⟩,
     ⟨2, .ret, [.inst 1]⟩]]]

/-- A single-block function with two identical fence instructions. -/
def fenceModule : Module :=
  [[[⟨0, .fence, []⟩, ⟨1, .fence, []⟩, ⟨2, .ret, []⟩]]]

/-! ## Basic lemmas about the graph primitives -/

@[simp] theorem updAt_nil (f : α → α) (i : Nat) : updAt f i ([] : List α) = [] := by
  cases i <;> rfl

@[simp] theorem length_updAt (f : α → α) (i : Nat) (l : List α) :
    (updAt f i l).length = l.length := by
  induction l generalizing i with
  | nil => simp
  | cons x xs ih => cases i <;> simp [updAt, ih]

theorem getElem?_updAt (f : α → α) (i j : Nat) (l : List α) :
    (updAt f i l)[j]? = if i = j then (l[j]?).map f else l[j]? := by
  induction l generalizing i j with
  | nil => simp
  | cons x xs ih =>
    cases i with
    | zero => cases j <;> simp [updAt]
    | succ i =>
      cases j with
      | zero => simp [updAt]
      | succ j => simpa [updAt] using ih i j

@[simp] theorem allInstrs_nil : allInstrs [] = [] := rfl

@[simp] theorem allInstrs_cons (f : Func) (fs : Module) :
    allInstrs (f :: fs) = f.flatten ++ allInstrs fs := by
  simp [allInstrs]

theorem flatten_updAt_sublist (g : List α → List α) (h : ∀ x, List.Sublist (g x) x)
    (i : Nat) (l : List (List α)) : List.Sublist (updAt g i l).flatten l.flatten := by
  induction l generalizing i with
  | nil => simp
  | cons x xs ih =>
    cases i with
    | zero => simpa [updAt] using (h x).append (List.Sublist.refl xs.flatten)
    | succ i => simpa [updAt] using (ih i).append_left x

theorem allInstrs_updBlock_sublist (g : BasicBlock → BasicBlock)
    (h : ∀ blk, List.Sublist (g blk) blk) (fi bi : Nat) (m : Module) :
    List.Sublist (allInstrs (updBlock m fi bi g)) (allInstrs m) := by
  induction m generalizing fi with
  | nil => simp [updBlock]
  | cons f fs ih =>
    cases fi with
    | zero =>
      simpa [updBlock, updAt] using
        (flatten_updAt_sublist g h bi f).append (List.Sublist.refl (allInstrs fs))
    | succ fi =>
      have h2 := List.Sublist.append_left (ih fi) f.flatten
      simpa [updBlock, updAt] using h2

theorem sum_map_le_of_sublist (f : α → Nat) {l₁ l₂ : List α} (h : List.Sublist l₁ l₂) :
    (l₁.map f).sum ≤ (l₂.map f).sum := by
  induction h with
  | slnil => simp
  | cons a _ ih => simp only [List.map_cons, List.sum_cons]; omega
  | cons₂ a _ ih => simp only [List.map_cons, List.sum_cons]; omega

theorem usesIn_mono_of_sublist {m₁ m₂ : Module}
    (h : List.Sublist (allInstrs m₁) (allInstrs m₂)) (id : Nat) :
    usesIn m₁ id ≤ usesIn m₂ id :=
  sum_map_le_of_sublist _ h

theorem allInstrs_eraseInstrAt_sublist (m : Module) (fi bi ii : Nat) :
    List.Sublist (allInstrs (eraseInstrAt m fi bi ii)) (allInstrs m) :=
  allInstrs_updBlock_sublist _ (fun blk => List.eraseIdx_sublist blk ii) fi bi m

theorem usesIn_eraseInstrAt_le (m : Module) (fi bi ii id : Nat) :
    usesIn (eraseInstrAt m fi bi ii) id ≤ usesIn m id :=
  usesIn_mono_of_sublist (allInstrs_eraseInstrAt_sublist m fi bi ii) id

theorem blockAt_updBlock_self (m : Module) (fi bi : Nat)
    (g : BasicBlock → BasicBlock) (hg : g [] = []) :
    blockAt (updBlock m fi bi g) fi bi = g (blockAt m fi bi) := by
  have h1 := getElem?_updAt (fun f => updAt g bi f) fi fi m
  rw [if_pos rfl] at h1
  cases hm : m[fi]? with
  | none => simp [blockAt, updBlock, h1, hm, hg]
  | some f =>
    have h2 := getElem?_updAt g bi bi f
    rw [if_pos rfl] at h2
    cases hf : f[bi]? with
    | none => simp [blockAt, updBlock, h1, hm, h2, hf, hg]
    | some blk => simp [blockAt, updBlock, h1, hm, h2, hf]

theorem blockAt_updBlock_other (m : Module) {fi bi fi' bi' : Nat}
    (g : BasicBlock → BasicBlock) (h : ¬(fi = fi' ∧ bi = bi')) :
    blockAt (updBlock m fi bi g) fi' bi' = blockAt m fi' bi' := by
  by_cases hfi : fi = fi'
  · subst hfi
    have hbi : bi ≠ bi' := fun hb => h ⟨rfl, hb⟩
    simp only [blockAt, updBlock, getElem?_updAt, if_pos rfl]
    cases hm : m[fi]? with
    | none => simp
    | some f => simp [getElem?_updAt, hbi]
  · simp [blockAt, updBlock, getElem?_updAt, hfi]

theorem blockAt_eraseInstrAt_self (m : Module) (fi bi ii : Nat) :
    blockAt (eraseInstrAt m fi bi ii) fi bi = (blockAt m fi bi).eraseIdx ii :=
  blockAt_updBlock_self m fi bi _ (by simp)

theorem blockAt_eraseInstrAt_other (m : Module) {fi bi fi' bi' : Nat} (ii : Nat)
    (h : ¬(fi = fi' ∧ bi = bi')) :
    blockAt (eraseInstrAt m fi bi ii) fi' bi' = blockAt m fi' bi' :=
  blockAt_updBlock_other m _ h

theorem mem_allInstrs_of_instrAt {m : Module} {fi bi ii : Nat} {X : Instruction}
    (h : instrAt m fi bi ii = some X) : X ∈ allInstrs m := by
  unfold instrAt blockAt at h
  cases hm : m[fi]? with
  | none => rw [hm] at h; simp at h
  | some f =>
    rw [hm] at h
    simp only [Option.some_bind] at h
    cases hf : f[bi]? with
    | none => rw [hf] at h; simp at h
    | some blk =>
      rw [hf] at h
      simp only [Option.getD_some] at h
      have hX : X ∈ blk := List.getElem?_mem h
      have hfm : f ∈ m := List.getElem?_mem hm
      have hbf : blk ∈ f := List.getElem?_mem hf
      simp only [allInstrs, List.mem_flatten, List.mem_map]
      exact ⟨f.flatten, ⟨f, hfm, rfl⟩, List.mem_flatten.2 ⟨blk, hbf, hX⟩⟩

/-! ## Lemmas about `replaceAllUsesWith` -/

@[simp] theorem subst_of_eq {old new : Value} : subst old new old = new := by
  simp [subst]

theorem subst_of_ne {old new v : Value} (h : v ≠ old) : subst old new v = v := by
  simp [subst, h]

theorem allInstrs_rauw (o n : Value) (m : Module) :
    allInstrs (rauwModule o n m) = (allInstrs m).map (rauwInst o n) := by
  simp only [allInstrs, rauwModule, List.map_map, List.map_flatten]
  congr 1
  apply List.map_congr_left
  intro f _
  simp [Function.comp, List.map_flatten]

theorem blockAt_rauw (o n : Value) (m : Module) (fi bi : Nat) :
    blockAt (rauwModule o n m) fi bi = (blockAt m fi bi).map (rauwInst o n) := by
  simp only [blockAt, rauwModule, List.getElem?_map]
  cases hm : m[fi]? with
  | none => simp
  | some f =>
    simp only [Option.map_some', Option.some_bind, List.getElem?_map]
    cases hf : f[bi]? with
    | none => simp
    | some blk => simp

theorem instrAt_rauw (o n : Value) (m : Module) (fi bi ii : Nat) :
    instrAt (rauwModule o n m) fi bi ii = (instrAt m fi bi ii).map (rauwInst o n) := by
  simp [instrAt, blockAt_rauw, List.getElem?_map]

theorem count_map_subst_old (l : List Value) {old new : Value} (h : new ≠ old) :
    (l.map (subst old new)).count old = 0 := by
  induction l with
  | nil => simp
  | cons v vs ih =>
    simp only [List.map_cons, List.count_cons, ih]
    by_cases hv : v = old <;> simp [subst, hv, h]

theorem count_map_subst_of_ne (l : List Value) {old new v : Value}
    (h1 : v ≠ old) (h2 : v ≠ new) :
    (l.map (subst old new)).count v = l.count v := by
  induction l with
  | nil => simp
  | cons w ws ih =>
    simp only [List.map_cons, List.count_cons, ih]
    by_cases hw : w = old
    · subst hw
      simp [subst, Ne.symm h1, Ne.symm h2]
    · simp [subst_of_ne hw]

theorem count_map_subst_le (l : List Value) {old new v : Value} (h2 : v ≠ new) :
    (l.map (subst old new)).count v ≤ l.count v := by
  induction l with
  | nil => simp
  | cons w ws ih =>
    simp only [List.map_cons, List.count_cons, beq_iff_eq]
    by_cases hw : w = old
    · subst hw
      simp only [subst_of_eq, if_neg (Ne.symm h2)]
      split <;> omega
    · simp only [subst_of_ne hw]
      split <;> omega

theorem usesIn_rauw_eq_zero (m : Module) (id : Nat) {n : Value}
    (h : n ≠ .inst id) : usesIn (rauwModule (.inst id) n m) id = 0 := by
  simp only [usesIn, allInstrs_rauw, List.map_map]
  apply List.sum_eq_zero
  intro x hx
  simp only [List.mem_map] at hx
  obtain ⟨ins, _, rfl⟩ := hx
  exact count_map_subst_old ins.operands h

theorem usesIn_rauw_le (m : Module) (id : Nat) {o n : Value}
    (h2 : n ≠ .inst id) : usesIn (rauwModule o n m) id ≤ usesIn m id := by
  simp only [usesIn, allInstrs_rauw, List.map_map]
  apply List.sum_le_sum
  intro ins _
  exact count_map_subst_le ins.operands (Ne.symm h2)

theorem usesIn_rauw_of_ne (m : Module) (id : Nat) {o n : Value}
    (h1 : Value.inst id ≠ o) (h2 : Value.inst id ≠ n) :
    usesIn (rauwModule o n m) id = usesIn m id := by
  simp only [usesIn, allInstrs_rauw, List.map_map]
  congr 1
  apply List.map_congr_left
  intro ins _
  exact count_map_subst_of_ne ins.operands h1 h2

/-! ## Lemmas about `eraseIdx` positions -/

theorem getElem?_eraseIdx_lt (l : List α) {k j : Nat} (h : j < k) :
    (l.eraseIdx k)[j]? = l[j]? := by
  induction l generalizing k j with
  | nil => simp [List.eraseIdx]
  | cons x xs ih =>
    cases k with
    | zero => omega
    | succ k =>
      cases j with
      | zero => simp [List.eraseIdx]
      | succ j =>
        simp only [List.eraseIdx, List.getElem?_cons_succ]
        exact ih (by omega)

theorem getElem?_eraseIdx_ge (l : List α) {k j : Nat} (h : k ≤ j) :
    (l.eraseIdx k)[j]? = l[j + 1]? := by
  induction l generalizing k j with
  | nil => simp [List.eraseIdx]
  | cons x xs ih =>
    cases k with
    | zero => simp [List.eraseIdx]
    | succ k =>
      cases j with
      | zero => omega
      | succ j =>
        simp only [List.eraseIdx, List.getElem?_cons_succ]
        exact ih (by omega)

theorem mem_eraseIdx_or (l : List α) (k : Nat) {X : α} (h : X ∈ l) :
    X ∈ l.eraseIdx k ∨ l[k]? = some X := by
  induction l generalizing k with
  | nil => cases h
  | cons x xs ih =>
    cases k with
    | zero =>
      rcases List.mem_cons.1 h with rfl | hxs
      · exact Or.inr (by simp)
      · exact Or.inl (by simpa [List.eraseIdx] using hxs)
    | succ k =>
      rcases List.mem_cons.1 h with rfl | hxs
      · exact Or.inl (by simp [List.eraseIdx])
      · rcases ih k hxs with h1 | h2
        · exact Or.inl (by simp [List.eraseIdx, h1])
        · exact Or.inr (by simpa using h2)

theorem count_eraseIdx_add_one [DecidableEq α] {l : List α} {k : Nat} {X : α}
    (h : l[k]? = some X) : (l.eraseIdx k).count X + 1 = l.count X := by
  induction l generalizing k with
  | nil => simp at h
  | cons x xs ih =>
    cases k with
    | zero =>
      simp only [List.getElem?_cons_zero, Option.some_inj] at h
      subst h
      simp [List.eraseIdx, List.count_cons]
    | succ k =>
      simp only [List.getElem?_cons_succ] at h
      simp only [List.eraseIdx, List.count_cons]
      have := ih h
      omega

theorem not_mem_eraseIdx_of_count_le_one [DecidableEq α] {l : List α} {k : Nat}
    {X : α} (h : l[k]? = some X) (hc : l.count X ≤ 1) : X ∉ l.eraseIdx k := by
  have h1 := count_eraseIdx_add_one h
  have h2 : (l.eraseIdx k).count X = 0 := by omega
  exact List.count_eq_zero.1 h2

/-! ## The changed flag of each pass is monotone, and a round that reports no
change leaves the module untouched -/

theorem dce_block_go_flag (fi bi k : Nat) : ∀ idx m,
    (dce_block_go fi bi k idx m true).2 = true := by
  induction k with
  | zero => intro idx m; rfl
  | succ k ih =>
    intro idx m
    rw [dce_block_go]
    cases instrAt m fi bi idx with
    | none => rfl
    | some inst =>
      by_cases hc : (usesIn m inst.id == 0 && is_safe_to_delete inst) = true
      · simp only [hc, if_true]; exact ih idx _
      · simp only [Bool.not_eq_true] at hc
        simp only [hc, Bool.false_eq_true, if_false]; exact ih (idx + 1) m

theorem dce_block_go_false {fi bi : Nat} (k : Nat) : ∀ {idx m c},
    (dce_block_go fi bi k idx m c).2 = false →
    (dce_block_go fi bi k idx m c).1 = m ∧ c = false := by
  induction k with
  | zero => intro idx m c h; exact ⟨rfl, h⟩
  | succ k ih =>
    intro idx m c h
    rw [dce_block_go] at h ⊢
    cases h0 : instrAt m fi bi idx with
    | none => rw [h0] at h; exact ⟨rfl, h⟩
    | some inst =>
      rw [h0] at h
      have h' : (if (usesIn m inst.id == 0 && is_safe_to_delete inst) = true then
          dce_block_go fi bi k idx (eraseInstrAt m fi bi idx) true
        else dce_block_go fi bi k (idx + 1) m c).2 = false := h
      by_cases hc : (usesIn m inst.id == 0 && is_safe_to_delete inst) = true
      · rw [if_pos hc] at h'
        rw [dce_block_go_flag] at h'
        cases h'
      · rw [if_neg hc] at h'
        obtain ⟨h1, h2⟩ := ih h'
        refine ⟨?_, h2⟩
        show (if (usesIn m inst.id == 0 && is_safe_to_delete inst) = true then
            dce_block_go fi bi k idx (eraseInstrAt m fi bi idx) true
          else dce_block_go fi bi k (idx + 1) m c).1 = m
        rw [if_neg hc]
        exact h1

theorem dce_blocks_go_flag (fi nb : Nat) : ∀ bi m,
    (dce_blocks_go fi nb bi m true).2 = true := by
  induction nb with
  | zero => intro bi m; rfl
  | succ nb ih =>
    intro bi m
    rw [dce_blocks_go]
    rw [show (dce_block_go fi bi (blockAt m fi bi).length 0 m true).2 = true from
      dce_block_go_flag fi bi _ 0 m] at *
    have h2 := dce_block_go_flag fi bi (blockAt m fi bi).length 0 m
    have := ih (bi + 1) (dce_block_go fi bi (blockAt m fi bi).length 0 m true).1
    simp only [h2] at this ⊢
    exact this

theorem dce_blocks_go_false {fi : Nat} (nb : Nat) : ∀ {bi m c},
    (dce_blocks_go fi nb bi m c).2 = false →
    (dce_blocks_go fi nb bi m c).1 = m ∧ c = false := by
  induction nb with
  | zero => intro bi m c h; exact ⟨rfl, h⟩
  | succ nb ih =>
    intro bi m c h
    rw [dce_blocks_go] at h ⊢
    obtain ⟨h1, h2⟩ := ih h
    obtain ⟨h3, h4⟩ := dce_block_go_false _ h2
    exact ⟨h1.trans h3, h4⟩

theorem dce_funcs_go_flag (nf : Nat) : ∀ fi m,
    (dce_funcs_go nf fi m true).2 = true := by
  induction nf with
  | zero => intro fi m; rfl
  | succ nf ih =>
    intro fi m
    rw [dce_funcs_go]
    have h2 := dce_blocks_go_flag fi ((m[fi]?).getD []).length 0 m
    have := ih (fi + 1) (dce_blocks_go fi ((m[fi]?).getD []).length 0 m true).1
    simp only [h2] at this ⊢
    exact this

theorem dce_funcs_go_false (nf : Nat) : ∀ {fi m c},
    (dce_funcs_go nf fi m c).2 = false →
    (dce_funcs_go nf fi m c).1 = m ∧ c = false := by
  induction nf with
  | zero => intro fi m c h; exact ⟨rfl, h⟩
  | succ nf ih =>
    intro fi m c h
    rw [dce_funcs_go] at h ⊢
    obtain ⟨h1, h2⟩ := ih h
    obtain ⟨h3, h4⟩ := dce_blocks_go_false _ h2
    exact ⟨h1.trans h3, h4⟩

theorem dce_false {m : Module} (h : (dead_code_elimination m).2 = false) :
    (dead_code_elimination m).1 = m :=
  (dce_funcs_go_false m.length h).1

theorem cf_block_go_flag (fi bi k : Nat) : ∀ idx m,
    (cf_block_go fi bi k idx m true).2 = true := by
  induction k with
  | zero => intro idx m; rfl
  | succ k ih =>
    intro idx m
    cases h0 : instrAt m fi bi idx with
    | none => simp [cf_block_go, h0]
    | some inst =>
      cases h1 : cf_fold_result inst with
      | none => simp only [cf_block_go, h0, h1]; exact ih (idx + 1) m
      | some c => simp only [cf_block_go, h0, h1]; exact ih (idx + 1) _

theorem cf_block_go_false {fi bi : Nat} (k : Nat) : ∀ {idx m c},
    (cf_block_go fi bi k idx m c).2 = false →
    (cf_block_go fi bi k idx m c).1 = m ∧ c = false := by
  induction k with
  | zero => intro idx m c h; exact ⟨rfl, h⟩
  | succ k ih =>
    intro idx m c h
    cases h0 : instrAt m fi bi idx with
    | none => simp only [cf_block_go, h0] at h ⊢; exact ⟨trivial, h⟩
    | some inst =>
      cases h1 : cf_fold_result inst with
      | none => simp only [cf_block_go, h0, h1] at h ⊢; exact ih h
      | some c2 =>
        simp only [cf_block_go, h0, h1] at h
        rw [cf_block_go_flag] at h
        cases h

theorem cf_blocks_go_flag (fi nb : Nat) : ∀ bi m,
    (cf_blocks_go fi nb bi m true).2 = true := by
  induction nb with
  | zero => intro bi m; rfl
  | succ nb ih =>
    intro bi m
    rw [cf_blocks_go]
    have h2 := cf_block_go_flag fi bi (blockAt m fi bi).length 0 m
    have := ih (bi + 1) (cf_block_go fi bi (blockAt m fi bi).length 0 m true).1
    simp only [h2] at this ⊢
    exact this

theorem cf_blocks_go_false {fi : Nat} (nb : Nat) : ∀ {bi m c},
    (cf_blocks_go fi nb bi m c).2 = false →
    (cf_blocks_go fi nb bi m c).1 = m ∧ c = false := by
  induction nb with
  | zero => intro bi m c h; exact ⟨rfl, h⟩
  | succ nb ih =>
    intro bi m c h
    rw [cf_blocks_go] at h ⊢
    obtain ⟨h1, h2⟩ := ih h
    obtain ⟨h3, h4⟩ := cf_block_go_false _ h2
    exact ⟨h1.trans h3, h4⟩

theorem cf_funcs_go_flag (nf : Nat) : ∀ fi m,
    (cf_funcs_go nf fi m true).2 = true := by
  induction nf with
  | zero => intro fi m; rfl
  | succ nf ih =>
    intro fi m
    rw [cf_funcs_go]
    have h2 := cf_blocks_go_flag fi ((m[fi]?).getD []).length 0 m
    have := ih (fi + 1) (cf_blocks_go fi ((m[fi]?).getD []).length 0 m true).1
    simp only [h2] at this ⊢
    exact this

theorem cf_funcs_go_false (nf : Nat) : ∀ {fi m c},
    (cf_funcs_go nf fi m c).2 = false →
    (cf_funcs_go nf fi m c).1 = m ∧ c = false := by
  induction nf with
  | zero => intro fi m c h; exact ⟨rfl, h⟩
  | succ nf ih =>
    intro fi m c h
    rw [cf_funcs_go] at h ⊢
    obtain ⟨h1, h2⟩ := ih h
    obtain ⟨h3, h4⟩ := cf_blocks_go_false _ h2
    exact ⟨h1.trans h3, h4⟩

theorem cf_false {m : Module} (h : (constant_folding m).2 = false) :
    (constant_folding m).1 = m :=
  (cf_funcs_go_false m.length h).1

theorem cse_b_go_flag (fi bi ai k : Nat) : ∀ bj m tr,
    (cse_b_go fi bi ai k bj m true tr).2.1 = true := by
  induction k with
  | zero => intro bj m tr; rfl
  | succ k ih =>
    intro bj m tr
    cases h0 : instrAt m fi bi ai with
    | none =>
      cases h1 : instrAt m fi bi bj with
      | none => simp [cse_b_go, h0, h1]
      | some ib => simp [cse_b_go, h0, h1]
    | some ia =>
      cases h1 : instrAt m fi bi bj with
      | none => simp [cse_b_go, h0, h1]
      | some ib =>
        simp only [cse_b_go, h0, h1]
        by_cases he : instructions_equal ia ib = true
        · rw [if_pos he]
          by_cases hl : (ia.opcode == Opcode.load &&
              cse_scan_store (blockAt m fi bi) ai bj (get_load_address ia)) = true
          · rw [if_pos hl]; exact ih (bj + 1) m tr
          · rw [if_neg hl]; exact ih (bj + 1) _ _
        · rw [if_neg he]; exact ih (bj + 1) m tr

theorem cse_b_go_false {fi bi ai : Nat} (k : Nat) : ∀ {bj m c tr},
    (cse_b_go fi bi ai k bj m c tr).2.1 = false →
    (cse_b_go fi bi ai k bj m c tr).1 = m ∧ c = false := by
  induction k with
  | zero => intro bj m c tr h; exact ⟨rfl, h⟩
  | succ k ih =>
    intro bj m c tr h
    cases h0 : instrAt m fi bi ai with
    | none =>
      cases h1 : instrAt m fi bi bj with
      | none => simp only [cse_b_go, h0, h1] at h ⊢; exact ⟨trivial, h⟩
      | some ib => simp only [cse_b_go, h0, h1] at h ⊢; exact ⟨trivial, h⟩
    | some ia =>
      cases h1 : instrAt m fi bi bj with
      | none => simp only [cse_b_go, h0, h1] at h ⊢; exact ⟨trivial, h⟩
      | some ib =>
        simp only [cse_b_go, h0, h1] at h ⊢
        by_cases he : instructions_equal ia ib = true
        · rw [if_pos he] at h ⊢
          by_cases hl : (ia.opcode == Opcode.load &&
              cse_scan_store (blockAt m fi bi) ai bj (get_load_address ia)) = true
          · rw [if_pos hl] at h ⊢; exact ih h
          · rw [if_neg hl] at h
            rw [cse_b_go_flag] at h
            cases h
        · rw [if_neg he] at h ⊢; exact ih h

theorem cse_a_go_flag (fi bi L k : Nat) : ∀ ai m tr,
    (cse_a_go fi bi L k ai m true tr).2.1 = true := by
  induction k with
  | zero => intro ai m tr; rfl
  | succ k ih =>
    intro ai m tr
    cases h0 : instrAt m fi bi ai with
    | none => simp [cse_a_go, h0]
    | some ia =>
      simp only [cse_a_go, h0]
      by_cases hx : excludedA ia.opcode = true
      · rw [if_pos hx]; exact ih (ai + 1) m tr
      · rw [if_neg hx]
        have hb := cse_b_go_flag fi bi ai (L - (ai + 1)) (ai + 1) m tr
        have := ih (ai + 1)
          (cse_b_go fi bi ai (L - (ai + 1)) (ai + 1) m true tr).1
          (cse_b_go fi bi ai (L - (ai + 1)) (ai + 1) m true tr).2.2
        simp only [hb] at this ⊢
        exact this

theorem cse_a_go_false {fi bi L : Nat} (k : Nat) : ∀ {ai m c tr},
    (cse_a_go fi bi L k ai m c tr).2.1 = false →
    (cse_a_go fi bi L k ai m c tr).1 = m ∧ c = false := by
  induction k with
  | zero => intro ai m c tr h; exact ⟨rfl, h⟩
  | succ k ih =>
    intro ai m c tr h
    cases h0 : instrAt m fi bi ai with
    | none => simp only [cse_a_go, h0] at h ⊢; exact ⟨trivial, h⟩
    | some ia =>
      simp only [cse_a_go, h0] at h ⊢
      by_cases hx : excludedA ia.opcode = true
      · rw [if_pos hx] at h ⊢
        exact ih h
      · rw [if_neg hx] at h ⊢
        obtain ⟨h1, h2⟩ := ih h
        obtain ⟨h3, h4⟩ := cse_b_go_false _ h2
        exact ⟨h1.trans h3, h4⟩

theorem cse_blocks_go_flag (fi nb : Nat) : ∀ bi m tr,
    (cse_blocks_go fi nb bi m true tr).2.1 = true := by
  induction nb with
  | zero => intro bi m tr; rfl
  | succ nb ih =>
    intro bi m tr
    rw [cse_blocks_go]
    have h2 := cse_a_go_flag fi bi (blockAt m fi bi).length
      (blockAt m fi bi).length 0 m tr
    have := ih (bi + 1)
      (cse_a_go fi bi (blockAt m fi bi).length (blockAt m fi bi).length 0 m true tr).1
      (cse_a_go fi bi (blockAt m fi bi).length (blockAt m fi bi).length 0 m true tr).2.2
    simp only [h2] at this ⊢
    exact this

theorem cse_blocks_go_false {fi : Nat} (nb : Nat) : ∀ {bi m c tr},
    (cse_blocks_go fi nb bi m c tr).2.1 = false →
    (cse_blocks_go fi nb bi m c tr).1 = m ∧ c = false := by
  induction nb with
  | zero => intro bi m c tr h; exact ⟨rfl, h⟩
  | succ nb ih =>
    intro bi m c tr h
    rw [cse_blocks_go] at h ⊢
    obtain ⟨h1, h2⟩ := ih h
    obtain ⟨h3, h4⟩ := cse_a_go_false _ h2
    exact ⟨h1.trans h3, h4⟩

theorem cse_funcs_go_flag (nf : Nat) : ∀ fi m tr,
    (cse_funcs_go nf fi m true tr).2.1 = true := by
  induction nf with
  | zero => intro fi m tr; rfl
  | succ nf ih =>
    intro fi m tr
    rw [cse_funcs_go]
    have h2 := cse_blocks_go_flag fi ((m[fi]?).getD []).length 0 m tr
    have := ih (fi + 1)
      (cse_blocks_go fi ((m[fi]?).getD []).length 0 m true tr).1
      (cse_blocks_go fi ((m[fi]?).getD []).length 0 m true tr).2.2
    simp only [h2] at this ⊢
    exact this

theorem cse_funcs_go_false (nf : Nat) : ∀ {fi m c tr},
    (cse_funcs_go nf fi m c tr).2.1 = false →
    (cse_funcs_go nf fi m c tr).1 = m ∧ c = false := by
  induction nf with
  | zero => intro fi m c tr h; exact ⟨rfl, h⟩
  | succ nf ih =>
    intro fi m c tr h
    rw [cse_funcs_go] at h ⊢
    obtain ⟨h1, h2⟩ := ih h
    obtain ⟨h3, h4⟩ := cse_blocks_go_false _ h2
    exact ⟨h1.trans h3, h4⟩

theorem cse_false {m : Module} (h : (common_subexpression_elimination m).2 = false) :
    (common_subexpression_elimination m).1 = m :=
  (cse_funcs_go_false m.length (h : (cse_run m).2.1 = false)).1

/-- A round that reports no change is the identity on the module. -/
theorem driver_step_false {m m' : Module} (h : driver_step m = (m', false)) :
    m' = m := by
  unfold driver_step at h
  have h2 : (dead_code_elimination m).2 = false ∧
      (constant_folding (dead_code_elimination m).1).2 = false ∧
      (common_subexpression_elimination
        (constant_folding (dead_code_elimination m).1).1).2 = false := by
    have := congrArg Prod.snd h
    simp only [constant_propagation, constant_propagation_run] at this ⊢
    simp only [Bool.or_eq_false_iff] at this
    exact ⟨this.1.1.1, this.1.1.2, this.1.2⟩
  obtain ⟨hd, hf, hs⟩ := h2
  have e1 := dce_false hd
  rw [e1] at hf hs
  have e2 := cf_false hf
  rw [e2] at hs
  have e3 := cse_false hs
  have := congrArg Prod.fst h
  simp only [constant_propagation, constant_propagation_run] at this
  rw [e1, e2, e3] at this
  exact this.symm

/-- When the driver loop halts, the module it returns is a fixed point of the
round. -/
theorem driver_loop_fixed : ∀ (n : Nat) {m m' : Module},
    driver_loop n m = some m' → driver_step m' = (m', false) := by
  intro n
  induction n with
  | zero => intro m m' h; cases h
  | succ n ih =>
    intro m m' h
    rw [driver_loop] at h
    by_cases hc : (driver_step m).2 = true
    · rw [if_pos hc] at h
      exact ih h
    · simp only [Bool.not_eq_true] at hc
      rw [hc] at h
      simp only [Bool.false_eq_true, if_false, Option.some_inj] at h
      subst h
      have hstep : driver_step m = ((driver_step m).1, false) := by
        rw [← hc]
      have := driver_step_false hstep
      rw [this]
      rw [this] at hstep
      exact hstep

/-! ## The two-fence module defeats the driver loop -/

theorem fence_step : driver_step fenceModule = (fenceModule, true) := by decide

theorem fence_loop_none : ∀ n : Nat, driver_loop n fenceModule = none := by
  intro n
  induction n with
  | zero => rfl
  | succ n ih =>
    rw [driver_loop, fence_step]
    simpa using ih

/-! ## Claim theorems: reaching-store stub, driver loop, idempotence -/

/-- C1: the source's `constant_propagation` never performs the store-to-load
forwarding the claim describes.  On the single-block function
`[ store addr_a, 42; %1 = load addr_a; ret %1 ]` the whole pipeline converges
after one round with the module unchanged: the store and the load are still
present and `ret` still returns the load result `%1`, not the constant 42. -/
theorem store_load_pipeline_unchanged :
    driver_loop 1 storeLoadModule = some storeLoadModule ∧
    instrAt storeLoadModule 0 0 0 = some ⟨0, .store, [.const 32 42, .param 0]⟩ ∧
    instrAt storeLoadModule 0 0 1 = some ⟨1, .load, [.param 0]⟩ ∧
    instrAt storeLoadModule 0 0 2 = some ⟨2, .ret, [.inst 1]⟩ ∧
    usesIn storeLoadModule 1 = 1 := by
  decide

/-- C2: `constant_propagation` only derives the per-block GEN/KILL tables for
diagnostics; it leaves the module unchanged and reports no change on every
invocation. -/
theorem constant_propagation_reports_no_change :
    ∀ m : Module, constant_propagation m = (m, false) ∧
      constant_propagation_run m = (m, false, m.map function_genkill) :=
  fun _ => ⟨rfl, rfl⟩

/-- C3 (counterexample): the driver has no round cap and no fatal-error path;
on the module with two identical fence instructions no number of rounds ever
reaches a fixed point, so the loop does not finish within any configured
round count. -/
theorem driver_cap_refuted :
    ¬ ∃ (n : Nat) (m' : Module), driver_loop n fenceModule = some m' := by
  rintro ⟨n, m', h⟩
  rw [fence_loop_none n] at h
  cases h

/-- C3 (amended): the driver repeats rounds of DCE, constant folding, CSE and
store propagation in that fixed order until a round reports no change; it
keeps an iteration counter but enforces no maximum round count and reports no
error, and on some inputs (a block with two identical fences) the loop never
finishes. -/
theorem driver_no_cap_loops_forever :
    (∀ (n : Nat) (m m' : Module), driver_loop n m = some m' →
        driver_step m' = (m', false)) ∧
    (∀ n : Nat, driver_loop n fenceModule = none) :=
  ⟨fun n _ _ h => driver_loop_fixed n h, fence_loop_none⟩

/-- Witness for C3 (amended) at concrete inputs. -/
theorem driver_no_cap_loops_forever_witness :
    driver_step storeLoadModule = (storeLoadModule, false) ∧
    driver_loop 5 fenceModule = none :=
  ⟨driver_no_cap_loops_forever.1 1 storeLoadModule storeLoadModule (by decide),
   driver_no_cap_loops_forever.2 5⟩

/-- C9: whenever the driver loop terminates, its result is a fixed point:
running the driver again on its own output halts at once with the same
module, so any (deterministic) serialization of the second run's output is
byte-identical to the first run's. -/
theorem driver_idempotent :
    ∀ (n k : Nat) (m m' : Module) (printer : Module → String),
      driver_loop n m = some m' →
      driver_loop (k + 1) m' = some m' ∧
      ∀ m'', driver_loop (k + 1) m' = some m'' → printer m'' = printer m' := by
  intro n k m m' printer h
  have hfix := driver_loop_fixed n h
  constructor
  · rw [driver_loop, hfix]
    simp
  · intro m'' h2
    rw [driver_loop, hfix] at h2
    simp only [Bool.false_eq_true, if_false, Option.some_inj] at h2
    rw [h2]

/-- Witness for C9 at a concrete module. -/
theorem driver_idempotent_witness :
    driver_loop 1 storeLoadModule = some storeLoadModule ∧
    driver_loop 3 storeLoadModule = some storeLoadModule :=
  ⟨by decide,
   (driver_idempotent 1 2 storeLoadModule storeLoadModule
      (fun _ => "") (by decide)).1⟩

/-- C10: on a module with a basic block holding two identical fence
instructions, CSE reports a change on every invocation while leaving the
module unchanged (the duplicate fence has no uses, so the replacement rewrites
nothing), DCE never erases the fences (side-effecting opcode), and the
driver's while-changed loop never terminates. -/
theorem cse_fence_divergence :
    common_subexpression_elimination fenceModule = (fenceModule, true) ∧
    dead_code_elimination fenceModule = (fenceModule, false) ∧
    usesIn fenceModule 1 = 0 ∧
    (∀ n : Nat, driver_loop n fenceModule = none) :=
  ⟨by decide, by decide, by decide, fence_loop_none⟩

/-! ## The KILL sets of the reaching-store analysis -/

/-- `KILL[B]` as the specification words it: the set of stores (anywhere in
the function) to an address that is also written by some store inside B.
(Refinement comparison definition, following the spec's words; unlike the
source it does not except the generating store itself.) -/
def KILL_spec (f : Func) (blk : BasicBlock) (S : Instruction) : Prop :=
  S ∈ allStoresOf f ∧
  ∃ T ∈ blk, is_store T = true ∧ stores_to_same_address T S = true

/-- A store instruction used in the KILL examples. -/
def store_A : Instruction := ⟨0, Opcode.store, [.const 32 1, .param 0]⟩

/-- A second store to the same address. -/
def store_B : Instruction := ⟨1, Opcode.store, [.const 32 2, .param 0]⟩

/-- A single-block function with one store. -/
def singleStoreBlock : BasicBlock := [store_A, ⟨1, .ret, []⟩]

def singleStoreFunc : Func := [singleStoreBlock]

/-- A single-block function with two stores to the same address. -/
def twoStoreBlock : BasicBlock := [store_A, store_B, ⟨2, .ret, []⟩]

def twoStoreFunc : Func := [twoStoreBlock]

/-- C8 (counterexample): on a block whose only store to an address is a single
store `store_A`, the spec's KILL set contains `store_A` (its address is
written by a store inside the block, namely itself), but the analysis as
implemented computes an empty KILL set: the `other_store != inst` test
excludes the generating store. -/
theorem kill_spec_refuted :
    KILL_spec singleStoreFunc singleStoreBlock store_A ∧
    store_A ∉ killOfBlock singleStoreBlock (allStoresOf singleStoreFunc) ∧
    function_genkill singleStoreFunc = [([store_A], [])] := by
  refine ⟨⟨by decide, store_A, by decide, by decide, by decide⟩, by decide, by decide⟩

/-- Membership in the KILL fold. -/
theorem killOfBlock_go_mem (all : List Instruction) (S : Instruction) :
    ∀ (blk : BasicBlock) (acc : List Instruction),
    (S ∈ blk.foldl
      (fun kill inst =>
        if is_store inst then
          kill ++ all.filter
            (fun o => o.id != inst.id && stores_to_same_address inst o)
        else kill)
      acc ↔
    S ∈ acc ∨ (S ∈ all ∧ ∃ T ∈ blk, is_store T = true ∧ S.id ≠ T.id ∧
      stores_to_same_address T S = true)) := by
  intro blk
  induction blk with
  | nil => simp
  | cons T ts ih =>
    intro acc
    simp only [List.foldl_cons]
    by_cases hT : is_store T = true
    · rw [if_pos hT, ih]
      simp only [List.mem_append, List.mem_filter, Bool.and_eq_true, bne_iff_ne,
        List.mem_cons]
      constructor
      · rintro ((hacc | ⟨hall, hne, hsame⟩) | ⟨hall, T', hT', hs, hne, hsame⟩)
        · exact Or.inl hacc
        · exact Or.inr ⟨hall, T, Or.inl rfl, hT, hne, hsame⟩
        · exact Or.inr ⟨hall, T', Or.inr hT', hs, hne, hsame⟩
      · rintro (hacc | ⟨hall, T', (rfl | hT'), hs, hne, hsame⟩)
        · exact Or.inl (Or.inl hacc)
        · exact Or.inl (Or.inr ⟨hall, hne, hsame⟩)
        · exact Or.inr ⟨hall, T', hT', hs, hne, hsame⟩
    · rw [if_neg hT, ih]
      constructor
      · rintro (hacc | ⟨hall, T', hT', hs, hne, hsame⟩)
        · exact Or.inl hacc
        · exact Or.inr ⟨hall, T', List.mem_cons_of_mem T hT', hs, hne, hsame⟩
      · rintro (hacc | ⟨hall, T', hT', hs, hne, hsame⟩)
        · exact Or.inl hacc
        · rcases List.mem_cons.1 hT' with rfl | hmem
          · exact absurd hs hT
          · exact Or.inr ⟨hall, T', hmem, hs, hne, hsame⟩

/-- C8 (amended): after the analysis runs, `KILL[B]` holds exactly the stores
of the function that share an address with some *other* store inside B (the
`other_store != inst` test excludes the generating store itself); a lone store
in B to its address is not a member, while each of two same-address stores in
B kills the other. -/
theorem kill_set_characterization :
    ∀ (f : Func) (bi : Nat) (blk : BasicBlock), f[bi]? = some blk →
    ∀ gen kill, (function_genkill f)[bi]? = some (gen, kill) →
    ∀ S : Instruction,
      S ∈ kill ↔ S ∈ allStoresOf f ∧ ∃ T ∈ blk, is_store T = true ∧
        S.id ≠ T.id ∧ stores_to_same_address T S = true := by
  intro f bi blk hblk gen kill hk S
  unfold function_genkill at hk
  rw [List.getElem?_map, hblk] at hk
  simp only [Option.map_some', Option.some_inj, Prod.mk.injEq] at hk
  rw [← hk.2]
  unfold killOfBlock
  rw [killOfBlock_go_mem]
  simp

/-- Witness for C8 (amended): with two same-address stores in the block, the
first store is in the block's KILL set. -/
theorem kill_set_characterization_witness :
    store_A ∈ killOfBlock twoStoreBlock (allStoresOf twoStoreFunc) :=
  (kill_set_characterization twoStoreFunc 0 twoStoreBlock rfl
      (genOfBlock twoStoreBlock)
      (killOfBlock twoStoreBlock (allStoresOf twoStoreFunc)) rfl store_A).mpr
    ⟨by decide, store_B, by decide, by decide, by decide, by decide⟩

/-! ## Exactness of the DCE sweep: block-level lemmas -/

theorem drop_eraseIdx_same (l : List α) : ∀ idx : Nat,
    (l.eraseIdx idx).drop idx = l.drop (idx + 1) := by
  induction l with
  | nil => intro idx; simp [List.eraseIdx]
  | cons x xs ih =>
    intro idx
    cases idx with
    | zero => simp [List.eraseIdx]
    | succ idx =>
      simp only [List.eraseIdx, List.drop_succ_cons]
      exact ih idx

theorem drop_cons_of_getElem? {l : List α} {idx : Nat} {x : α}
    (h : l[idx]? = some x) : l.drop idx = x :: l.drop (idx + 1) := by
  induction l generalizing idx with
  | nil => simp at h
  | cons y ys ih =>
    cases idx with
    | zero =>
      simp only [List.getElem?_cons_zero, Option.some_inj] at h
      subst h
      simp
    | succ idx =>
      simp only [List.getElem?_cons_succ] at h
      simp only [List.drop_succ_cons]
      exact ih h

theorem not_mem_blockAt_erase {m : Module} {fi bi : Nat} {X : Instruction}
    (fi2 bi2 ii : Nat) (hX : X ∉ blockAt m fi bi) :
    X ∉ blockAt (eraseInstrAt m fi2 bi2 ii) fi bi := by
  by_cases h : fi2 = fi ∧ bi2 = bi
  · obtain ⟨rfl, rfl⟩ := h
    rw [blockAt_eraseInstrAt_self]
    intro hmem
    exact hX ((List.eraseIdx_sublist _ _).subset hmem)
  · rw [blockAt_eraseInstrAt_other m _ h]
    exact hX

theorem dce_block_go_blockAt_other {fi2 bi2 fi bi : Nat}
    (hne : ¬(fi2 = fi ∧ bi2 = bi)) (k : Nat) : ∀ idx m c,
    blockAt (dce_block_go fi2 bi2 k idx m c).1 fi bi = blockAt m fi bi := by
  induction k with
  | zero => intro idx m c; rfl
  | succ k ih =>
    intro idx m c
    cases h0 : instrAt m fi2 bi2 idx with
    | none => simp [dce_block_go, h0]
    | some inst =>
      simp only [dce_block_go, h0]
      by_cases hc : (usesIn m inst.id == 0 && is_safe_to_delete inst) = true
      · rw [if_pos hc, ih]
        exact blockAt_eraseInstrAt_other m idx hne
      · rw [if_neg hc]
        exact ih (idx + 1) m c

theorem dce_block_go_usesIn_le (fi2 bi2 k : Nat) : ∀ idx m c id,
    usesIn (dce_block_go fi2 bi2 k idx m c).1 id ≤ usesIn m id := by
  induction k with
  | zero => intro idx m c id; exact le_refl _
  | succ k ih =>
    intro idx m c id
    cases h0 : instrAt m fi2 bi2 idx with
    | none => simp [dce_block_go, h0]
    | some inst =>
      simp only [dce_block_go, h0]
      by_cases hc : (usesIn m inst.id == 0 && is_safe_to_delete inst) = true
      · rw [if_pos hc]
        exact le_trans (ih idx _ true id) (usesIn_eraseInstrAt_le m fi2 bi2 idx id)
      · rw [if_neg hc]
        exact ih (idx + 1) m c id

theorem dce_block_go_not_mem {fi2 bi2 fi bi : Nat} {X : Instruction} (k : Nat) :
    ∀ idx m c, X ∉ blockAt m fi bi →
    X ∉ blockAt (dce_block_go fi2 bi2 k idx m c).1 fi bi := by
  induction k with
  | zero => intro idx m c hX; exact hX
  | succ k ih =>
    intro idx m c hX
    cases h0 : instrAt m fi2 bi2 idx with
    | none => simpa [dce_block_go, h0] using hX
    | some inst =>
      simp only [dce_block_go, h0]
      by_cases hc : (usesIn m inst.id == 0 && is_safe_to_delete inst) = true
      · rw [if_pos hc]
        exact ih idx _ true (not_mem_blockAt_erase fi2 bi2 idx hX)
      · rw [if_neg hc]
        exact ih (idx + 1) m c hX

theorem dce_block_go_unsafe_mem {fi bi : Nat} {X : Instruction}
    (hnsafe : is_safe_to_delete X = false) (k : Nat) : ∀ idx m c,
    X ∈ blockAt m fi bi → X ∈ blockAt (dce_block_go fi bi k idx m c).1 fi bi := by
  induction k with
  | zero => intro idx m c hX; exact hX
  | succ k ih =>
    intro idx m c hX
    cases h0 : instrAt m fi bi idx with
    | none => simpa [dce_block_go, h0] using hX
    | some inst =>
      simp only [dce_block_go, h0]
      by_cases hc : (usesIn m inst.id == 0 && is_safe_to_delete inst) = true
      · rw [if_pos hc]
        simp only [Bool.and_eq_true, beq_iff_eq] at hc
        have hs : is_safe_to_delete inst = true := hc.2
        have hXne : inst ≠ X := by
          intro he
          rw [he] at hs
          rw [hs] at hnsafe
          cases hnsafe
        have h0' : (blockAt m fi bi)[idx]? = some inst := h0
        have hX2 : X ∈ blockAt (eraseInstrAt m fi bi idx) fi bi := by
          rw [blockAt_eraseInstrAt_self]
          rcases mem_eraseIdx_or (blockAt m fi bi) idx hX with h1 | h2
          · exact h1
          · rw [h0'] at h2
            exact absurd (Option.some_inj.1 h2) hXne
        exact ih idx _ true hX2
      · rw [if_neg hc]
        exact ih (idx + 1) m c hX

theorem dce_block_go_removed {fi bi : Nat} {X : Instruction} (k : Nat) :
    ∀ idx m c, X ∈ blockAt m fi bi →
    X ∉ blockAt (dce_block_go fi bi k idx m c).1 fi bi →
    is_safe_to_delete X = true ∧
      usesIn (dce_block_go fi bi k idx m c).1 X.id = 0 := by
  induction k with
  | zero => intro idx m c hX hnot; exact absurd hX hnot
  | succ k ih =>
    intro idx m c hX hnot
    cases h0 : instrAt m fi bi idx with
    | none =>
      simp only [dce_block_go, h0] at hnot
      exact absurd hX hnot
    | some inst =>
      simp only [dce_block_go, h0] at hnot ⊢
      by_cases hc : (usesIn m inst.id == 0 && is_safe_to_delete inst) = true
      · rw [if_pos hc] at hnot ⊢
        simp only [Bool.and_eq_true, beq_iff_eq] at hc
        obtain ⟨hu0, hs⟩ := hc
        by_cases hXe : inst = X
        · subst hXe
          refine ⟨hs, Nat.le_zero.1 ?_⟩
          calc usesIn (dce_block_go fi bi k idx (eraseInstrAt m fi bi idx) true).1 inst.id
              ≤ usesIn (eraseInstrAt m fi bi idx) inst.id :=
                dce_block_go_usesIn_le fi bi k idx _ true inst.id
            _ ≤ usesIn m inst.id := usesIn_eraseInstrAt_le m fi bi idx inst.id
            _ = 0 := hu0
        · have h0' : (blockAt m fi bi)[idx]? = some inst := h0
          have hX2 : X ∈ blockAt (eraseInstrAt m fi bi idx) fi bi := by
            rw [blockAt_eraseInstrAt_self]
            rcases mem_eraseIdx_or (blockAt m fi bi) idx hX with h1 | h2
            · exact h1
            · rw [h0'] at h2
              exact absurd (Option.some_inj.1 h2) hXe
          exact ih idx _ true hX2 hnot
      · rw [if_neg hc] at hnot ⊢
        exact ih (idx + 1) m c hX hnot

theorem dce_block_go_forced {fi bi : Nat} {X : Instruction}
    (hsafe : is_safe_to_delete X = true) (k : Nat) : ∀ idx m c,
    X ∈ (blockAt m fi bi).drop idx →
    (blockAt m fi bi).count X ≤ 1 →
    usesIn m X.id = 0 →
    (blockAt m fi bi).length = idx + k →
    X ∉ blockAt (dce_block_go fi bi k idx m c).1 fi bi := by
  induction k with
  | zero =>
    intro idx m c hX _ _ hlen
    have hlen' : (blockAt m fi bi).length ≤ idx := by omega
    rw [List.drop_eq_nil_of_le hlen'] at hX
    cases hX
  | succ k ih =>
    intro idx m c hX hcount huses hlen
    cases h0 : instrAt m fi bi idx with
    | none =>
      unfold instrAt at h0
      rw [List.getElem?_eq_none_iff] at h0
      omega
    | some inst =>
      simp only [dce_block_go, h0]
      have hdropc : (blockAt m fi bi).drop idx = inst :: (blockAt m fi bi).drop (idx + 1) :=
        drop_cons_of_getElem? h0
      by_cases hXe : inst = X
      · subst hXe
        have hc : (usesIn m inst.id == 0 && is_safe_to_delete inst) = true := by
          rw [huses, hsafe]
          rfl
        rw [if_pos hc]
        have h0' : (blockAt m fi bi)[idx]? = some inst := h0
        have hX2 : inst ∉ blockAt (eraseInstrAt m fi bi idx) fi bi := by
          rw [blockAt_eraseInstrAt_self]
          exact not_mem_eraseIdx_of_count_le_one h0' hcount
        exact dce_block_go_not_mem k idx _ true hX2
      · have hXdrop : X ∈ (blockAt m fi bi).drop (idx + 1) := by
          rw [hdropc] at hX
          rcases List.mem_cons.1 hX with rfl | h2
          · exact absurd rfl hXe
          · exact h2
        by_cases hc : (usesIn m inst.id == 0 && is_safe_to_delete inst) = true
        · rw [if_pos hc]
          have hblk : blockAt (eraseInstrAt m fi bi idx) fi bi =
              (blockAt m fi bi).eraseIdx idx := blockAt_eraseInstrAt_self m fi bi idx
          apply ih idx (eraseInstrAt m fi bi idx) true
          · rw [hblk, drop_eraseIdx_same]
            exact hXdrop
          · rw [hblk]
            exact le_trans ((List.eraseIdx_sublist _ idx).count_le X) hcount
          · exact Nat.le_zero.1 (le_trans (usesIn_eraseInstrAt_le m fi bi idx X.id)
              (le_of_eq huses))
          · rw [hblk, List.length_eraseIdx_of_lt]
            · omega
            · unfold instrAt at h0
              exact (List.getElem?_eq_some_iff.1 h0).1
        · rw [if_neg hc]
          apply ih (idx + 1) m c hXdrop hcount huses
          omega

/-! ## Exactness of the DCE sweep: lifting through the block and function
loops -/

theorem funcLen_eraseInstrAt (m : Module) (fi2 bi2 ii fi' : Nat) :
    (((eraseInstrAt m fi2 bi2 ii)[fi']?).getD []).length =
      ((m[fi']?).getD []).length := by
  unfold eraseInstrAt updBlock
  rw [getElem?_updAt]
  by_cases h : fi2 = fi'
  · rw [if_pos h]
    cases m[fi']? <;> simp
  · rw [if_neg h]

theorem dce_block_go_funcLen (fi2 bi2 k : Nat) :
    ∀ (idx : Nat) (m : Module) (c : Bool) (fi' : Nat),
    ((((dce_block_go fi2 bi2 k idx m c).1)[fi']?).getD []).length =
      ((m[fi']?).getD []).length := by
  induction k with
  | zero => intro idx m c fi'; rfl
  | succ k ih =>
    intro idx m c fi'
    cases h0 : instrAt m fi2 bi2 idx with
    | none => simp [dce_block_go, h0]
    | some inst =>
      simp only [dce_block_go, h0]
      by_cases hc : (usesIn m inst.id == 0 && is_safe_to_delete inst) = true
      · rw [if_pos hc, ih]
        exact funcLen_eraseInstrAt m fi2 bi2 idx fi'
      · rw [if_neg hc]
        exact ih (idx + 1) m c fi'

theorem dce_blocks_go_blockAt_other {fi2 fi bi : Nat} (hne : fi2 ≠ fi)
    (nb : Nat) : ∀ (bi0 : Nat) (m : Module) (c : Bool),
    blockAt (dce_blocks_go fi2 nb bi0 m c).1 fi bi = blockAt m fi bi := by
  induction nb with
  | zero => intro bi0 m c; rfl
  | succ nb ih =>
    intro bi0 m c
    rw [dce_blocks_go, ih]
    exact dce_block_go_blockAt_other (fun hp => hne hp.1) _ 0 m c

theorem dce_blocks_go_usesIn_le (fi2 nb : Nat) :
    ∀ (bi0 : Nat) (m : Module) (c : Bool) (id : Nat),
    usesIn (dce_blocks_go fi2 nb bi0 m c).1 id ≤ usesIn m id := by
  induction nb with
  | zero => intro bi0 m c id; exact le_refl _
  | succ nb ih =>
    intro bi0 m c id
    rw [dce_blocks_go]
    exact le_trans (ih (bi0 + 1) _ _ id) (dce_block_go_usesIn_le fi2 bi0 _ 0 m c id)

theorem dce_blocks_go_not_mem {fi2 fi bi : Nat} {X : Instruction} (nb : Nat) :
    ∀ (bi0 : Nat) (m : Module) (c : Bool), X ∉ blockAt m fi bi →
    X ∉ blockAt (dce_blocks_go fi2 nb bi0 m c).1 fi bi := by
  induction nb with
  | zero => intro bi0 m c hX; exact hX
  | succ nb ih =>
    intro bi0 m c hX
    rw [dce_blocks_go]
    exact ih (bi0 + 1) _ _ (dce_block_go_not_mem _ 0 m c hX)

theorem dce_blocks_go_funcLen (fi2 nb : Nat) :
    ∀ (bi0 : Nat) (m : Module) (c : Bool) (fi' : Nat),
    ((((dce_blocks_go fi2 nb bi0 m c).1)[fi']?).getD []).length =
      ((m[fi']?).getD []).length := by
  induction nb with
  | zero => intro bi0 m c fi'; rfl
  | succ nb ih =>
    intro bi0 m c fi'
    rw [dce_blocks_go, ih]
    exact dce_block_go_funcLen fi2 bi0 _ 0 m c fi'

theorem dce_blocks_go_unsafe_mem {fi bi : Nat} {X : Instruction}
    (hnsafe : is_safe_to_delete X = false) (nb : Nat) :
    ∀ (bi0 : Nat) (m : Module) (c : Bool),
    X ∈ blockAt m fi bi → X ∈ blockAt (dce_blocks_go fi nb bi0 m c).1 fi bi := by
  induction nb with
  | zero => intro bi0 m c hX; exact hX
  | succ nb ih =>
    intro bi0 m c hX
    rw [dce_blocks_go]
    apply ih (bi0 + 1)
    by_cases hbi : bi0 = bi
    · subst hbi
      exact dce_block_go_unsafe_mem hnsafe _ 0 m c hX
    · rw [dce_block_go_blockAt_other (fun hp => hbi hp.2) _ 0 m c]
      exact hX

theorem dce_blocks_go_removed {fi bi : Nat} {X : Instruction} (nb : Nat) :
    ∀ (bi0 : Nat) (m : Module) (c : Bool), X ∈ blockAt m fi bi →
    X ∉ blockAt (dce_blocks_go fi nb bi0 m c).1 fi bi →
    is_safe_to_delete X = true ∧
      usesIn (dce_blocks_go fi nb bi0 m c).1 X.id = 0 := by
  induction nb with
  | zero => intro bi0 m c hX hnot; exact absurd hX hnot
  | succ nb ih =>
    intro bi0 m c hX hnot
    rw [dce_blocks_go] at hnot ⊢
    by_cases hmem :
        X ∈ blockAt (dce_block_go fi bi0 (blockAt m fi bi0).length 0 m c).1 fi bi
    · exact ih (bi0 + 1) _ _ hmem hnot
    · by_cases hbi : bi0 = bi
      · subst hbi
        obtain ⟨hsafe, huz⟩ := dce_block_go_removed _ 0 m c hX hmem
        refine ⟨hsafe, Nat.le_zero.1 ?_⟩
        exact le_trans (dce_blocks_go_usesIn_le fi nb (bi0 + 1) _ _ X.id)
          (le_of_eq huz)
      · exfalso
        apply hmem
        rw [dce_block_go_blockAt_other (fun hp => hbi hp.2) _ 0 m c]
        exact hX

theorem dce_blocks_go_forced {fi bi : Nat} {X : Instruction}
    (hsafe : is_safe_to_delete X = true) (nb : Nat) :
    ∀ (bi0 : Nat) (m : Module) (c : Bool),
    bi0 ≤ bi → bi < bi0 + nb →
    X ∈ blockAt m fi bi → (blockAt m fi bi).count X ≤ 1 →
    usesIn m X.id = 0 →
    X ∉ blockAt (dce_blocks_go fi nb bi0 m c).1 fi bi := by
  induction nb with
  | zero => intro bi0 m c h1 h2 _ _ _; omega
  | succ nb ih =>
    intro bi0 m c h1 h2 hX hcount huses
    rw [dce_blocks_go]
    by_cases hbi : bi0 = bi
    · subst hbi
      have hXr : X ∉ blockAt
          (dce_block_go fi bi0 (blockAt m fi bi0).length 0 m c).1 fi bi0 := by
        apply dce_block_go_forced hsafe _ 0 m c
        · simpa using hX
        · exact hcount
        · exact huses
        · omega
      exact dce_blocks_go_not_mem nb (bi0 + 1) _ _ hXr
    · have hother :
          blockAt (dce_block_go fi bi0 (blockAt m fi bi0).length 0 m c).1 fi bi =
            blockAt m fi bi :=
        dce_block_go_blockAt_other (fun hp => hbi hp.2) _ 0 m c
      apply ih (bi0 + 1) _ _ (by omega) (by omega)
      · rw [hother]; exact hX
      · rw [hother]; exact hcount
      · exact Nat.le_zero.1 (le_trans
          (dce_block_go_usesIn_le fi bi0 _ 0 m c X.id) (le_of_eq huses))

theorem dce_funcs_go_usesIn_le (nf : Nat) :
    ∀ (fi0 : Nat) (m : Module) (c : Bool) (id : Nat),
    usesIn (dce_funcs_go nf fi0 m c).1 id ≤ usesIn m id := by
  induction nf with
  | zero => intro fi0 m c id; exact le_refl _
  | succ nf ih =>
    intro fi0 m c id
    rw [dce_funcs_go]
    exact le_trans (ih (fi0 + 1) _ _ id)
      (dce_blocks_go_usesIn_le fi0 _ 0 m c id)

theorem dce_funcs_go_not_mem {fi bi : Nat} {X : Instruction} (nf : Nat) :
    ∀ (fi0 : Nat) (m : Module) (c : Bool), X ∉ blockAt m fi bi →
    X ∉ blockAt (dce_funcs_go nf fi0 m c).1 fi bi := by
  induction nf with
  | zero => intro fi0 m c hX; exact hX
  | succ nf ih =>
    intro fi0 m c hX
    rw [dce_funcs_go]
    exact ih (fi0 + 1) _ _ (dce_blocks_go_not_mem _ 0 m c hX)

theorem dce_funcs_go_unsafe_mem {fi bi : Nat} {X : Instruction}
    (hnsafe : is_safe_to_delete X = false) (nf : Nat) :
    ∀ (fi0 : Nat) (m : Module) (c : Bool),
    X ∈ blockAt m fi bi → X ∈ blockAt (dce_funcs_go nf fi0 m c).1 fi bi := by
  induction nf with
  | zero => intro fi0 m c hX; exact hX
  | succ nf ih =>
    intro fi0 m c hX
    rw [dce_funcs_go]
    apply ih (fi0 + 1)
    by_cases hfi : fi0 = fi
    · subst hfi
      exact dce_blocks_go_unsafe_mem hnsafe _ 0 m c hX
    · rw [dce_blocks_go_blockAt_other hfi _ 0 m c]
      exact hX

theorem dce_funcs_go_removed {fi bi : Nat} {X : Instruction} (nf : Nat) :
    ∀ (fi0 : Nat) (m : Module) (c : Bool), X ∈ blockAt m fi bi →
    X ∉ blockAt (dce_funcs_go nf fi0 m c).1 fi bi →
    is_safe_to_delete X = true ∧ usesIn (dce_funcs_go nf fi0 m c).1 X.id = 0 := by
  induction nf with
  | zero => intro fi0 m c hX hnot; exact absurd hX hnot
  | succ nf ih =>
    intro fi0 m c hX hnot
    rw [dce_funcs_go] at hnot ⊢
    by_cases hmem :
        X ∈ blockAt (dce_blocks_go fi0 ((m[fi0]?).getD []).length 0 m c).1 fi bi
    · exact ih (fi0 + 1) _ _ hmem hnot
    · by_cases hfi : fi0 = fi
      · subst hfi
        obtain ⟨hsafe, huz⟩ := dce_blocks_go_removed _ 0 m c hX hmem
        refine ⟨hsafe, Nat.le_zero.1 ?_⟩
        exact le_trans (dce_funcs_go_usesIn_le nf (fi0 + 1) _ _ X.id)
          (le_of_eq huz)
      · exfalso
        apply hmem
        rw [dce_blocks_go_blockAt_other hfi _ 0 m c]
        exact hX

theorem dce_funcs_go_forced {fi bi : Nat} {X : Instruction}
    (hsafe : is_safe_to_delete X = true) (nf : Nat) :
    ∀ (fi0 : Nat) (m : Module) (c : Bool),
    fi0 ≤ fi → fi < fi0 + nf →
    bi < ((m[fi]?).getD []).length →
    X ∈ blockAt m fi bi → (blockAt m fi bi).count X ≤ 1 →
    usesIn m X.id = 0 →
    X ∉ blockAt (dce_funcs_go nf fi0 m c).1 fi bi := by
  induction nf with
  | zero => intro fi0 m c h1 h2 _ _ _ _; omega
  | succ nf ih =>
    intro fi0 m c h1 h2 hbi hX hcount huses
    rw [dce_funcs_go]
    by_cases hfi : fi0 = fi
    · subst hfi
      have hXr : X ∉ blockAt
          (dce_blocks_go fi0 ((m[fi0]?).getD []).length 0 m c).1 fi0 bi :=
        dce_blocks_go_forced hsafe _ 0 m c (Nat.zero_le bi) (by omega) hX hcount huses
      exact dce_funcs_go_not_mem nf (fi0 + 1) _ _ hXr
    · have hother :
          blockAt (dce_blocks_go fi0 ((m[fi0]?).getD []).length 0 m c).1 fi bi =
            blockAt m fi bi :=
        dce_blocks_go_blockAt_other hfi _ 0 m c
      apply ih (fi0 + 1) _ _ (by omega) (by omega)
      · rw [dce_blocks_go_funcLen fi0 _ 0 m c fi]
        exact hbi
      · rw [hother]; exact hX
      · rw [hother]; exact hcount
      · exact Nat.le_zero.1 (le_trans
          (dce_blocks_go_usesIn_le fi0 _ 0 m c X.id) (le_of_eq huses))

theorem mem_blockAt_pos {m : Module} {fi bi : Nat} {X : Instruction}
    (h : X ∈ blockAt m fi bi) :
    fi < m.length ∧ bi < ((m[fi]?).getD []).length := by
  unfold blockAt at h
  cases hm : m[fi]? with
  | none => rw [hm] at h; simp at h
  | some f =>
    rw [hm] at h
    simp only [Option.some_bind] at h
    cases hf : f[bi]? with
    | none => rw [hf] at h; simp at h
    | some blk =>
      refine ⟨?_, ?_⟩
      · obtain ⟨hlt, _⟩ := List.getElem?_eq_some_iff.1 hm
        exact hlt
      · simp only [Option.getD_some]
        obtain ⟨hlt, _⟩ := List.getElem?_eq_some_iff.1 hf
        exact hlt

/-- C4: dead code elimination never erases a side-effecting or terminator
instruction, regardless of its use count; and for a safe instruction (under
unique pointer identities within its block), it is erased exactly when its
use list is empty: an instruction erased by the sweep is safe and has no
remaining uses in the output, and an instruction that is safe and unused on
entry is always erased. -/
theorem dce_exact :
    ∀ (m : Module) (fi bi : Nat) (X : Instruction),
    X ∈ blockAt m fi bi →
    (blockAt m fi bi).count X ≤ 1 →
    ((is_safe_to_delete X = false →
        X ∈ blockAt (dead_code_elimination m).1 fi bi) ∧
     (X ∉ blockAt (dead_code_elimination m).1 fi bi →
        is_safe_to_delete X = true ∧
          usesIn (dead_code_elimination m).1 X.id = 0) ∧
     (is_safe_to_delete X = true → usesIn m X.id = 0 →
        X ∉ blockAt (dead_code_elimination m).1 fi bi)) := by
  intro m fi bi X hX hcount
  obtain ⟨hfi, hbi⟩ := mem_blockAt_pos hX
  refine ⟨?_, ?_, ?_⟩
  · intro hnsafe
    exact dce_funcs_go_unsafe_mem hnsafe m.length 0 m false hX
  · intro hnot
    exact dce_funcs_go_removed m.length 0 m false hX hnot
  · intro hsafe huses
    exact dce_funcs_go_forced hsafe m.length 0 m false (Nat.zero_le fi)
      (by omega) hbi hX hcount huses

/-- A module with a dead load, a store and a return. -/
def deadLoadModule : Module :=
  [[[⟨0, .load, [.param 0]⟩, ⟨1, .store, [.const 32 7, .param 0]⟩,
     ⟨2, .ret, []⟩]]]

/-- Witness for C4: DCE keeps the store (side-effecting) and erases the
unused load. -/
theorem dce_exact_witness :
    (⟨1, .store, [.const 32 7, .param 0]⟩ : Instruction) ∈
        blockAt (dead_code_elimination deadLoadModule).1 0 0 ∧
    (⟨0, .load, [.param 0]⟩ : Instruction) ∉
        blockAt (dead_code_elimination deadLoadModule).1 0 0 :=
  ⟨(dce_exact deadLoadModule 0 0 _ (by decide) (by decide)).1 (by decide),
   (dce_exact deadLoadModule 0 0 _ (by decide) (by decide)).2.2 (by decide)
     (by decide)⟩

/-! ## Module shape: constant folding and CSE never create or erase
instructions -/

/-- The shape of an instruction: identity, opcode and operand count — the
parts that `replaceAllUsesWith` can never change. -/
def instrShape (ins : Instruction) : Nat × Opcode × Nat :=
  (ins.id, ins.opcode, ins.operands.length)

/-- The shape of a module. -/
def moduleShape (m : Module) : List (List (List (Nat × Opcode × Nat))) :=
  m.map (fun f => f.map (fun b => b.map instrShape))

theorem instrShape_rauwInst (o n : Value) (ins : Instruction) :
    instrShape (rauwInst o n ins) = instrShape ins := by
  simp [instrShape, rauwInst]

theorem moduleShape_rauw (o n : Value) (m : Module) :
    moduleShape (rauwModule o n m) = moduleShape m := by
  simp [moduleShape, rauwModule, List.map_map, Function.comp,
    instrShape_rauwInst]

theorem blockAt_shape {m m' : Module}
    (h : moduleShape m' = moduleShape m) (fi bi : Nat) :
    (blockAt m' fi bi).map instrShape = (blockAt m fi bi).map instrShape := by
  have h1 : (moduleShape m')[fi]? = (moduleShape m)[fi]? := by rw [h]
  unfold moduleShape at h1
  rw [List.getElem?_map, List.getElem?_map] at h1
  unfold blockAt
  cases hm' : m'[fi]? with
  | none =>
    rw [hm'] at h1
    cases hm : m[fi]? with
    | none => simp
    | some f => rw [hm] at h1; cases h1
  | some f' =>
    rw [hm'] at h1
    cases hm : m[fi]? with
    | none => rw [hm] at h1; cases h1
    | some f =>
      rw [hm] at h1
      simp only [Option.map_some', Option.some_inj] at h1
      have h2 : (f'.map (fun b => b.map instrShape))[bi]? =
          (f.map (fun b => b.map instrShape))[bi]? := by rw [h1]
      rw [List.getElem?_map, List.getElem?_map] at h2
      simp only [Option.some_bind]
      cases hf' : f'[bi]? with
      | none =>
        rw [hf'] at h2
        cases hf : f[bi]? with
        | none => simp
        | some blk => rw [hf] at h2; cases h2
      | some blk' =>
        rw [hf'] at h2
        cases hf : f[bi]? with
        | none => rw [hf] at h2; cases h2
        | some blk =>
          rw [hf] at h2
          simp only [Option.map_some', Option.some_inj] at h2
          simpa using h2

theorem instrAt_shape {m m' : Module}
    (h : moduleShape m' = moduleShape m) (fi bi ii : Nat) :
    (instrAt m' fi bi ii).map instrShape = (instrAt m fi bi ii).map instrShape := by
  unfold instrAt
  have hb := blockAt_shape h fi bi
  have h1 : ((blockAt m' fi bi).map instrShape)[ii]? =
      ((blockAt m fi bi).map instrShape)[ii]? := by rw [hb]
  rw [List.getElem?_map, List.getElem?_map] at h1
  exact h1

theorem instrAt_of_shape {m m' : Module}
    (h : moduleShape m' = moduleShape m) {fi bi ii : Nat} {Y : Instruction}
    (hY : instrAt m' fi bi ii = some Y) :
    ∃ Y0, instrAt m fi bi ii = some Y0 ∧ Y0.id = Y.id ∧
      Y0.opcode = Y.opcode ∧ Y0.operands.length = Y.operands.length := by
  have h1 := instrAt_shape h fi bi ii
  rw [hY] at h1
  cases h2 : instrAt m fi bi ii with
  | none => rw [h2] at h1; cases h1
  | some Y0 =>
    rw [h2] at h1
    simp only [Option.map_some', Option.some_inj] at h1
    refine ⟨Y0, rfl, ?_, ?_, ?_⟩
    · exact congrArg (fun p => p.1) h1.symm
    · exact congrArg (fun p => p.2.1) h1.symm
    · exact congrArg (fun p => p.2.2) h1.symm

/-! ## Exactness of constant folding -/

theorem rauwInst_eq_self {old new : Value} {ins : Instruction}
    (h : ∀ v ∈ ins.operands, v ≠ old) : rauwInst old new ins = ins := by
  unfold rauwInst
  have h2 : ins.operands.map (subst old new) = ins.operands := by
    rw [List.map_congr_left (fun v hv => subst_of_ne (h v hv))]
    exact List.map_id' ins.operands
  rw [h2]

theorem rauwInst_operands_get (old new : Value) (Y : Instruction) (k : Nat) :
    (rauwInst old new Y).operands[k]? = (Y.operands[k]?).map (subst old new) := by
  simp [rauwInst, List.getElem?_map]

theorem cf_fold_result_isConstant {inst : Instruction} {c : Value}
    (h : cf_fold_result inst = some c) : isConstant c = true := by
  unfold cf_fold_result at h
  by_cases hop : (inst.opcode == Opcode.add || inst.opcode == Opcode.sub ||
      inst.opcode == Opcode.mul) = true
  · rw [if_pos hop] at h
    cases h0 : inst.operands[0]? with
    | none => rw [h0] at h; cases h
    | some op1 =>
      cases h1 : inst.operands[1]? with
      | none => rw [h0, h1] at h; cases h
      | some op2 =>
        rw [h0, h1] at h
        have h' : (if (isConstant op1 && isConstant op2) = true then
            constFold inst.opcode op1 op2 else none) = some c := h
        by_cases hcc : (isConstant op1 && isConstant op2) = true
        · rw [if_pos hcc] at h'
          unfold constFold at h'
          cases op1 with
          | const w a =>
            cases op2 with
            | const w' b =>
              have h2 : (if w = w' then
                  some (Value.const w (wrap w (opInt inst.opcode (a : Int) (b : Int))))
                else none) = some c := h'
              by_cases hw : w = w'
              · rw [if_pos hw] at h2
                cases h2
                rfl
              · rw [if_neg hw] at h2; cases h2
            | inst i => cases h'
            | param i => cases h'
          | inst i => cases h'
          | param i => cases h'
        · rw [if_neg hcc] at h'; cases h'
  · rw [if_neg hop] at h; cases h

/-- Invariant before the folding sweep reaches the target instruction `X`:
shape unchanged, `X` untouched, and every operand slot that held `X`'s result
in the initial module still holds it. -/
def CFPre (m0 : Module) (fi bi ii : Nat) (X : Instruction) (m : Module) : Prop :=
  moduleShape m = moduleShape m0 ∧
  instrAt m fi bi ii = some X ∧
  ∀ (fi' bi' ii' k : Nat) (Y0 Y : Instruction),
    instrAt m0 fi' bi' ii' = some Y0 →
    Y0.operands[k]? = some (.inst X.id) →
    instrAt m fi' bi' ii' = some Y → Y.operands[k]? = some (.inst X.id)

/-- Invariant after the folding sweep has visited `X`: shape unchanged, `X`
still present and untouched, `X`'s result unused, and every operand slot that
held `X`'s result initially now holds the folded constant `cX`. -/
def CFPost (m0 : Module) (fi bi ii : Nat) (X : Instruction) (cX : Value)
    (m : Module) : Prop :=
  moduleShape m = moduleShape m0 ∧
  instrAt m fi bi ii = some X ∧
  usesIn m X.id = 0 ∧
  ∀ (fi' bi' ii' k : Nat) (Y0 Y : Instruction),
    instrAt m0 fi' bi' ii' = some Y0 →
    Y0.operands[k]? = some (.inst X.id) →
    instrAt m fi' bi' ii' = some Y → Y.operands[k]? = some cX

theorem CFPre_rauw {m0 : Module} {fi bi ii : Nat} {X : Instruction}
    (hXops : ∀ v ∈ X.operands, isConstant v = true)
    {m : Module} (hpre : CFPre m0 fi bi ii X m)
    {zid : Nat} (hz : zid ≠ X.id) {c : Value} :
    CFPre m0 fi bi ii X (rauwModule (.inst zid) c m) := by
  obtain ⟨hsh, hat, hslot⟩ := hpre
  refine ⟨(moduleShape_rauw _ _ m).trans hsh, ?_, ?_⟩
  · rw [instrAt_rauw, hat]
    simp only [Option.map_some', Option.some_inj]
    apply rauwInst_eq_self
    intro v hv he
    have h2 := hXops v hv
    rw [he] at h2
    simp [isConstant] at h2
  · intro fi' bi' ii' k Y0 Y h0 hk hY
    rw [instrAt_rauw] at hY
    obtain ⟨Ym, hYm, rfl⟩ := Option.map_eq_some'.1 hY
    rw [rauwInst_operands_get, hslot fi' bi' ii' k Y0 Ym h0 hk hYm]
    simp only [Option.map_some', Option.some_inj]
    rw [subst_of_ne]
    intro he
    injection he with h3
    exact hz h3.symm

theorem CFPre_to_post {m0 : Module} {fi bi ii : Nat} {X : Instruction}
    (hXops : ∀ v ∈ X.operands, isConstant v = true)
    {m : Module} (hpre : CFPre m0 fi bi ii X m)
    {cX : Value} (hc : isConstant cX = true) :
    CFPost m0 fi bi ii X cX (rauwModule (.inst X.id) cX m) := by
  obtain ⟨hsh, hat, hslot⟩ := hpre
  refine ⟨(moduleShape_rauw _ _ m).trans hsh, ?_, ?_, ?_⟩
  · rw [instrAt_rauw, hat]
    simp only [Option.map_some', Option.some_inj]
    apply rauwInst_eq_self
    intro v hv he
    have h2 := hXops v hv
    rw [he] at h2
    simp [isConstant] at h2
  · apply usesIn_rauw_eq_zero
    intro he
    rw [he] at hc
    simp [isConstant] at hc
  · intro fi' bi' ii' k Y0 Y h0 hk hY
    rw [instrAt_rauw] at hY
    obtain ⟨Ym, hYm, rfl⟩ := Option.map_eq_some'.1 hY
    rw [rauwInst_operands_get, hslot fi' bi' ii' k Y0 Ym h0 hk hYm]
    simp [subst]

theorem CFPost_rauw {m0 : Module} {fi bi ii : Nat} {X : Instruction}
    (hXops : ∀ v ∈ X.operands, isConstant v = true)
    {cX : Value} (hcX : isConstant cX = true)
    {m : Module} (hpost : CFPost m0 fi bi ii X cX m)
    (zid : Nat) {c : Value} (hc : isConstant c = true) :
    CFPost m0 fi bi ii X cX (rauwModule (.inst zid) c m) := by
  obtain ⟨hsh, hat, huse, hslot⟩ := hpost
  refine ⟨(moduleShape_rauw _ _ m).trans hsh, ?_, ?_, ?_⟩
  · rw [instrAt_rauw, hat]
    simp only [Option.map_some', Option.some_inj]
    apply rauwInst_eq_self
    intro v hv he
    have h2 := hXops v hv
    rw [he] at h2
    simp [isConstant] at h2
  · have hle : usesIn (rauwModule (.inst zid) c m) X.id ≤ usesIn m X.id := by
      apply usesIn_rauw_le
      intro he
      rw [he] at hc
      simp [isConstant] at hc
    omega
  · intro fi' bi' ii' k Y0 Y h0 hk hY
    rw [instrAt_rauw] at hY
    obtain ⟨Ym, hYm, rfl⟩ := Option.map_eq_some'.1 hY
    rw [rauwInst_operands_get, hslot fi' bi' ii' k Y0 Ym h0 hk hYm]
    simp only [Option.map_some', Option.some_inj]
    apply subst_of_ne
    intro he
    rw [he] at hcX
    simp [isConstant] at hcX

theorem blockAt_length_of_shape {m m' : Module}
    (h : moduleShape m' = moduleShape m) (fi bi : Nat) :
    (blockAt m' fi bi).length = (blockAt m fi bi).length := by
  have h1 := blockAt_shape h fi bi
  have h2 := congrArg List.length h1
  simpa using h2

theorem funcLen_of_shape {m m' : Module}
    (h : moduleShape m' = moduleShape m) (fi : Nat) :
    ((m'[fi]?).getD []).length = ((m[fi]?).getD []).length := by
  have h1 : (moduleShape m')[fi]? = (moduleShape m)[fi]? := by rw [h]
  unfold moduleShape at h1
  rw [List.getElem?_map, List.getElem?_map] at h1
  cases hm' : m'[fi]? with
  | none =>
    cases hm : m[fi]? with
    | none => simp
    | some f => rw [hm', hm] at h1; cases h1
  | some f' =>
    cases hm : m[fi]? with
    | none => rw [hm', hm] at h1; cases h1
    | some f =>
      rw [hm', hm] at h1
      simp only [Option.map_some', Option.some_inj] at h1
      have h2 := congrArg List.length h1
      simpa using h2

section CFProof

variable {m0 : Module} {fi bi ii : Nat} {X : Instruction} {cX : Value}

theorem cf_id_ne
    (hOnly : ∀ (fi' bi' ii' : Nat) (Y : Instruction),
      instrAt m0 fi' bi' ii' = some Y → Y.id = X.id →
      fi' = fi ∧ bi' = bi ∧ ii' = ii)
    {m : Module} (hsh : moduleShape m = moduleShape m0) {fi2 bi2 idx : Nat}
    {inst : Instruction} (h : instrAt m fi2 bi2 idx = some inst)
    (hpos : ¬(fi2 = fi ∧ bi2 = bi ∧ idx = ii)) : inst.id ≠ X.id := by
  intro he
  obtain ⟨Y0, h0, hid, _, _⟩ := instrAt_of_shape hsh h
  exact hpos (hOnly fi2 bi2 idx Y0 h0 (hid.trans he))

theorem CFPost_cf_block
    (hXops : ∀ v ∈ X.operands, isConstant v = true)
    (hcX : isConstant cX = true) (fi2 bi2 k : Nat) :
    ∀ (idx : Nat) (m : Module) (c : Bool),
    CFPost m0 fi bi ii X cX m →
    CFPost m0 fi bi ii X cX (cf_block_go fi2 bi2 k idx m c).1 := by
  induction k with
  | zero => intro idx m c hp; exact hp
  | succ k ih =>
    intro idx m c hp
    cases h0 : instrAt m fi2 bi2 idx with
    | none => simpa [cf_block_go, h0] using hp
    | some inst =>
      cases h1 : cf_fold_result inst with
      | none =>
        simp only [cf_block_go, h0, h1]
        exact ih (idx + 1) m c hp
      | some c2 =>
        simp only [cf_block_go, h0, h1]
        exact ih (idx + 1) _ true
          (CFPost_rauw hXops hcX hp inst.id (cf_fold_result_isConstant h1))

theorem CFPost_cf_blocks
    (hXops : ∀ v ∈ X.operands, isConstant v = true)
    (hcX : isConstant cX = true) (fi2 nb : Nat) :
    ∀ (bi0 : Nat) (m : Module) (c : Bool),
    CFPost m0 fi bi ii X cX m →
    CFPost m0 fi bi ii X cX (cf_blocks_go fi2 nb bi0 m c).1 := by
  induction nb with
  | zero => intro bi0 m c hp; exact hp
  | succ nb ih =>
    intro bi0 m c hp
    rw [cf_blocks_go]
    exact ih (bi0 + 1) _ _ (CFPost_cf_block hXops hcX fi2 bi0 _ 0 m c hp)

theorem CFPost_cf_funcs
    (hXops : ∀ v ∈ X.operands, isConstant v = true)
    (hcX : isConstant cX = true) (nf : Nat) :
    ∀ (fi0 : Nat) (m : Module) (c : Bool),
    CFPost m0 fi bi ii X cX m →
    CFPost m0 fi bi ii X cX (cf_funcs_go nf fi0 m c).1 := by
  induction nf with
  | zero => intro fi0 m c hp; exact hp
  | succ nf ih =>
    intro fi0 m c hp
    rw [cf_funcs_go]
    exact ih (fi0 + 1) _ _ (CFPost_cf_blocks hXops hcX fi0 _ 0 m c hp)

theorem CFPre_cf_block_other
    (hXops : ∀ v ∈ X.operands, isConstant v = true)
    (hOnly : ∀ (fi' bi' ii' : Nat) (Y : Instruction),
      instrAt m0 fi' bi' ii' = some Y → Y.id = X.id →
      fi' = fi ∧ bi' = bi ∧ ii' = ii)
    {fi2 bi2 : Nat} (hne : ¬(fi2 = fi ∧ bi2 = bi)) (k : Nat) :
    ∀ (idx : Nat) (m : Module) (c : Bool),
    CFPre m0 fi bi ii X m →
    CFPre m0 fi bi ii X (cf_block_go fi2 bi2 k idx m c).1 := by
  induction k with
  | zero => intro idx m c hp; exact hp
  | succ k ih =>
    intro idx m c hp
    cases h0 : instrAt m fi2 bi2 idx with
    | none => simpa [cf_block_go, h0] using hp
    | some inst =>
      cases h1 : cf_fold_result inst with
      | none =>
        simp only [cf_block_go, h0, h1]
        exact ih (idx + 1) m c hp
      | some c2 =>
        simp only [cf_block_go, h0, h1]
        have hne2 : inst.id ≠ X.id :=
          cf_id_ne hOnly hp.1 h0 (fun hp3 => hne ⟨hp3.1, hp3.2.1⟩)
        exact ih (idx + 1) _ true (CFPre_rauw hXops hp hne2)

theorem CFPre_cf_block_visit
    (hXops : ∀ v ∈ X.operands, isConstant v = true)
    (hcX : isConstant cX = true)
    (hfold : cf_fold_result X = some cX)
    (hOnly : ∀ (fi' bi' ii' : Nat) (Y : Instruction),
      instrAt m0 fi' bi' ii' = some Y → Y.id = X.id →
      fi' = fi ∧ bi' = bi ∧ ii' = ii) (k : Nat) :
    ∀ (idx : Nat) (m : Module) (c : Bool),
    CFPre m0 fi bi ii X m →
    idx ≤ ii → idx + k = (blockAt m fi bi).length →
    CFPost m0 fi bi ii X cX (cf_block_go fi bi k idx m c).1 := by
  induction k with
  | zero =>
    intro idx m c hp hle hlen
    have hii : ii < (blockAt m fi bi).length :=
      (List.getElem?_eq_some_iff.1 hp.2.1).1
    omega
  | succ k ih =>
    intro idx m c hp hle hlen
    by_cases hidx : idx = ii
    · subst hidx
      have h0 : instrAt m fi bi idx = some X := hp.2.1
      simp only [cf_block_go, h0, hfold]
      exact CFPost_cf_block hXops hcX fi bi k (idx + 1) _ true
        (CFPre_to_post hXops hp hcX)
    · cases h0 : instrAt m fi bi idx with
      | none =>
        exfalso
        have hii : ii < (blockAt m fi bi).length :=
          (List.getElem?_eq_some_iff.1 hp.2.1).1
        have := List.getElem?_eq_none_iff.1 h0
        unfold instrAt at this h0
        have h2 := List.getElem?_eq_none_iff.1 h0
        omega
      | some inst =>
        have hne2 : inst.id ≠ X.id :=
          cf_id_ne hOnly hp.1 h0 (fun hp3 => hidx hp3.2.2)
        cases h1 : cf_fold_result inst with
        | none =>
          simp only [cf_block_go, h0, h1]
          apply ih (idx + 1) m c hp (by omega)
          omega
        | some c2 =>
          simp only [cf_block_go, h0, h1]
          have hpre2 := CFPre_rauw (c := c2) hXops hp hne2
          apply ih (idx + 1) _ true hpre2 (by omega)
          rw [blockAt_length_of_shape (hpre2.1.trans hp.1.symm) fi bi]
          omega


theorem CFPre_cf_blocks_other
    (hXops : ∀ v ∈ X.operands, isConstant v = true)
    (hOnly : ∀ (fi' bi' ii' : Nat) (Y : Instruction),
      instrAt m0 fi' bi' ii' = some Y → Y.id = X.id →
      fi' = fi ∧ bi' = bi ∧ ii' = ii)
    {fi2 : Nat} (hne : fi2 ≠ fi) (nb : Nat) :
    ∀ (bi0 : Nat) (m : Module) (c : Bool),
    CFPre m0 fi bi ii X m →
    CFPre m0 fi bi ii X (cf_blocks_go fi2 nb bi0 m c).1 := by
  induction nb with
  | zero => intro bi0 m c hp; exact hp
  | succ nb ih =>
    intro bi0 m c hp
    rw [cf_blocks_go]
    exact ih (bi0 + 1) _ _
      (CFPre_cf_block_other hXops hOnly (fun hp2 => hne hp2.1) _ 0 m c hp)

theorem CFPre_cf_blocks_visit
    (hXops : ∀ v ∈ X.operands, isConstant v = true)
    (hcX : isConstant cX = true)
    (hfold : cf_fold_result X = some cX)
    (hOnly : ∀ (fi' bi' ii' : Nat) (Y : Instruction),
      instrAt m0 fi' bi' ii' = some Y → Y.id = X.id →
      fi' = fi ∧ bi' = bi ∧ ii' = ii) (nb : Nat) :
    ∀ (bi0 : Nat) (m : Module) (c : Bool),
    CFPre m0 fi bi ii X m →
    bi0 ≤ bi → bi < bi0 + nb →
    CFPost m0 fi bi ii X cX (cf_blocks_go fi nb bi0 m c).1 := by
  induction nb with
  | zero => intro bi0 m c _ h1 h2; omega
  | succ nb ih =>
    intro bi0 m c hp h1 h2
    rw [cf_blocks_go]
    by_cases hbi : bi0 = bi
    · subst hbi
      apply CFPost_cf_blocks hXops hcX fi nb (bi0 + 1)
      exact CFPre_cf_block_visit hXops hcX hfold hOnly _ 0 m c hp
        (Nat.zero_le ii) (by omega)
    · apply ih (bi0 + 1) _ _ ?_ (by omega) (by omega)
      exact CFPre_cf_block_other hXops hOnly (fun hp2 => hbi hp2.2) _ 0 m c hp

theorem CFPre_cf_funcs_visit
    (hXops : ∀ v ∈ X.operands, isConstant v = true)
    (hcX : isConstant cX = true)
    (hfold : cf_fold_result X = some cX)
    (hOnly : ∀ (fi' bi' ii' : Nat) (Y : Instruction),
      instrAt m0 fi' bi' ii' = some Y → Y.id = X.id →
      fi' = fi ∧ bi' = bi ∧ ii' = ii) (nf : Nat) :
    ∀ (fi0 : Nat) (m : Module) (c : Bool),
    CFPre m0 fi bi ii X m →
    fi0 ≤ fi → fi < fi0 + nf →
    bi < ((m[fi]?).getD []).length →
    CFPost m0 fi bi ii X cX (cf_funcs_go nf fi0 m c).1 := by
  induction nf with
  | zero => intro fi0 m c _ h1 h2 _; omega
  | succ nf ih =>
    intro fi0 m c hp h1 h2 hbi
    rw [cf_funcs_go]
    by_cases hfi : fi0 = fi
    · subst hfi
      apply CFPost_cf_funcs hXops hcX nf (fi0 + 1)
      exact CFPre_cf_blocks_visit hXops hcX hfold hOnly _ 0 m c hp
        (Nat.zero_le bi) (by omega)
    · have hpre2 := CFPre_cf_blocks_other hXops hOnly hfi
        ((m[fi0]?).getD []).length 0 m c hp
      apply ih (fi0 + 1) _ _ hpre2 (by omega) (by omega)
      rw [funcLen_of_shape (hpre2.1.trans hp.1.symm) fi]
      exact hbi

end CFProof

/-- C5: for every add/sub/mul instruction `X` whose two operands are constants
of width `w` (with `X`'s identity unique in the module), constant folding
computes the result with two's-complement wraparound at width `w`, replaces
every use of `X` with that interned constant, leaves `X` itself in place and
unchanged with zero uses immediately afterwards, and neither creates nor
erases any instruction (the module shape is preserved). -/
theorem constant_folding_exact :
    ∀ (m : Module) (fi bi ii : Nat) (X : Instruction) (w a b : Nat),
    instrAt m fi bi ii = some X →
    (X.opcode = .add ∨ X.opcode = .sub ∨ X.opcode = .mul) →
    X.operands = [.const w a, .const w b] →
    (∀ (fi' bi' ii' : Nat) (Y : Instruction), instrAt m fi' bi' ii' = some Y →
      Y.id = X.id → fi' = fi ∧ bi' = bi ∧ ii' = ii) →
    (moduleShape (constant_folding m).1 = moduleShape m ∧
     instrAt (constant_folding m).1 fi bi ii = some X ∧
     usesIn (constant_folding m).1 X.id = 0 ∧
     ∀ (fi' bi' ii' k : Nat) (Y : Instruction),
       instrAt m fi' bi' ii' = some Y →
       Y.operands[k]? = some (.inst X.id) →
       ∃ Y', instrAt (constant_folding m).1 fi' bi' ii' = some Y' ∧
         Y'.operands[k]? =
           some (Value.const w (wrap w (opInt X.opcode (a : Int) (b : Int))))) := by
  intro m fi bi ii X w a b h1 h2 h3 hOnly
  have hXops : ∀ v ∈ X.operands, isConstant v = true := by
    rw [h3]
    intro v hv
    rcases List.mem_cons.1 hv with rfl | hv2
    · rfl
    · rcases List.mem_cons.1 hv2 with rfl | hv3
      · rfl
      · cases hv3
  have hcX : isConstant (Value.const w (wrap w (opInt X.opcode (a : Int) (b : Int)))) = true := rfl
  have hfold : cf_fold_result X =
      some (Value.const w (wrap w (opInt X.opcode (a : Int) (b : Int)))) := by
    unfold cf_fold_result
    have hop : (X.opcode == Opcode.add || X.opcode == Opcode.sub ||
        X.opcode == Opcode.mul) = true := by
      rcases h2 with h | h | h <;> rw [h] <;> rfl
    rw [if_pos hop, h3]
    simp [isConstant, constFold]
  have hX_mem : X ∈ blockAt m fi bi := List.getElem?_mem h1
  obtain ⟨hfi, hbi⟩ := mem_blockAt_pos hX_mem
  have hpre : CFPre m fi bi ii X m := by
    refine ⟨rfl, h1, ?_⟩
    intro fi' bi' ii' k Y0 Y h0 hk hY
    have he : Y0 = Y := Option.some_inj.1 (h0.symm.trans hY)
    rw [← he]
    exact hk
  have hpost : CFPost m fi bi ii X
      (Value.const w (wrap w (opInt X.opcode (a : Int) (b : Int))))
      (constant_folding m).1 :=
    CFPre_cf_funcs_visit hXops hcX hfold hOnly m.length 0 m false hpre
      (Nat.zero_le fi) (by omega) hbi
  obtain ⟨hsh, hat, huse, hslot⟩ := hpost
  refine ⟨hsh, hat, huse, ?_⟩
  intro fi' bi' ii' k Y hY hk
  have hmap := instrAt_shape hsh fi' bi' ii'
  cases hY' : instrAt (constant_folding m).1 fi' bi' ii' with
  | none => rw [hY', hY] at hmap; cases hmap
  | some Y' => exact ⟨Y', rfl, hslot fi' bi' ii' k Y Y' hY hk hY'⟩

/-- A module with `%0 = sub i32 5, 8` used by the return. -/
def subFoldModule : Module :=
  [[[⟨0, .sub, [.const 32 5, .const 32 8]⟩, ⟨1, .ret, [.inst 0]⟩]]]

/-- Witness for C5: folding `sub 5, 8` at width 32 leaves the sub in place
with zero uses and rewrites the return's operand to the wrapped bit pattern
of -3 (and `fold(add,10,20) = 30`). -/
theorem constant_folding_exact_witness :
    instrAt (constant_folding subFoldModule).1 0 0 0 =
      some ⟨0, .sub, [.const 32 5, .const 32 8]⟩ ∧
    usesIn (constant_folding subFoldModule).1 0 = 0 ∧
    (∃ Y', instrAt (constant_folding subFoldModule).1 0 0 1 = some Y' ∧
      Y'.operands[0]? = some (.const 32 4294967293)) ∧
    toSigned 32 4294967293 = -3 ∧
    wrap 32 ((10 : Int) + 20) = 30 := by
  have honly : ∀ (fi' bi' ii' : Nat) (Y : Instruction),
      instrAt subFoldModule fi' bi' ii' = some Y →
      Y.id = Instruction.id ⟨0, .sub, [.const 32 5, .const 32 8]⟩ →
      fi' = 0 ∧ bi' = 0 ∧ ii' = 0 := by
    intro fi' bi' ii' Y h hid
    rcases fi' with _ | fi'
    · rcases bi' with _ | bi'
      · rcases ii' with _ | ii'
        · exact ⟨rfl, rfl, rfl⟩
        · rcases ii' with _ | ii'
          · simp [instrAt, blockAt, subFoldModule] at h
            rw [← h] at hid
            simp at hid
          · simp [instrAt, blockAt, subFoldModule] at h
      · simp [instrAt, blockAt, subFoldModule] at h
    · simp [instrAt, blockAt, subFoldModule] at h
  have hmain := constant_folding_exact subFoldModule 0 0 0
    ⟨0, .sub, [.const 32 5, .const 32 8]⟩ 32 5 8 (by decide) (by decide)
    (by decide) honly
  obtain ⟨hsh, hat, huse, hslot⟩ := hmain
  refine ⟨hat, huse, ?_, by decide, by decide⟩
  obtain ⟨Y', hY', hop⟩ := hslot 0 0 1 0 ⟨1, .ret, [.inst 0]⟩ (by decide) (by decide)
  refine ⟨Y', hY', ?_⟩
  rw [hop]
  decide

/-! ## CSE never touches excluded instructions -/

theorem instructions_equal_opcode {a b : Instruction}
    (h : instructions_equal a b = true) : b.opcode = a.opcode := by
  unfold instructions_equal at h
  simp only [Bool.and_eq_true, beq_iff_eq] at h
  exact h.1.1.symm

theorem instrAt_rauw_opcode {m : Module} {fi bi ai : Nat} {o n : Value}
    (hA : ∀ inst, instrAt m fi bi ai = some inst →
      excludedA inst.opcode = false) :
    ∀ inst, instrAt (rauwModule o n m) fi bi ai = some inst →
      excludedA inst.opcode = false := by
  intro inst h
  rw [instrAt_rauw] at h
  obtain ⟨inst0, h0, rfl⟩ := Option.map_eq_some'.1 h
  have := hA inst0 h0
  simpa [rauwInst] using this

theorem cse_b_go_trace {fi bi ai : Nat} (k : Nat) :
    ∀ (bj : Nat) (m : Module) (c : Bool)
      (tr : List (Instruction × Instruction)),
    (∀ inst, instrAt m fi bi ai = some inst →
      excludedA inst.opcode = false) →
    ∀ p ∈ (cse_b_go fi bi ai k bj m c tr).2.2, p ∈ tr ∨
      (excludedA p.1.opcode = false ∧ excludedA p.2.opcode = false ∧
        instructions_equal p.1 p.2 = true) := by
  induction k with
  | zero => intro bj m c tr _ p hp; exact Or.inl hp
  | succ k ih =>
    intro bj m c tr hA p hp
    cases h0 : instrAt m fi bi ai with
    | none =>
      cases h1 : instrAt m fi bi bj with
      | none => simp only [cse_b_go, h0, h1] at hp; exact Or.inl hp
      | some ib => simp only [cse_b_go, h0, h1] at hp; exact Or.inl hp
    | some ia =>
      cases h1 : instrAt m fi bi bj with
      | none => simp only [cse_b_go, h0, h1] at hp; exact Or.inl hp
      | some ib =>
        simp only [cse_b_go, h0, h1] at hp
        by_cases he : instructions_equal ia ib = true
        · rw [if_pos he] at hp
          by_cases hl : (ia.opcode == Opcode.load &&
              cse_scan_store (blockAt m fi bi) ai bj (get_load_address ia)) = true
          · rw [if_pos hl] at hp
            exact ih (bj + 1) m c tr hA p hp
          · rw [if_neg hl] at hp
            rcases ih (bj + 1) _ true _ (instrAt_rauw_opcode hA) p hp with
              hmem | hgood
            · rcases List.mem_append.1 hmem with hmem2 | hmem2
              · exact Or.inl hmem2
              · have hpe : p = (ia, ib) := by simpa using hmem2
                subst hpe
                have hxa : excludedA ia.opcode = false := hA ia h0
                refine Or.inr ⟨hxa, ?_, he⟩
                rw [instructions_equal_opcode he]
                exact hxa
            · exact Or.inr hgood
        · rw [if_neg he] at hp
          exact ih (bj + 1) m c tr hA p hp

theorem cse_a_go_trace {fi bi : Nat} (L k : Nat) :
    ∀ (ai : Nat) (m : Module) (c : Bool)
      (tr : List (Instruction × Instruction)),
    ∀ p ∈ (cse_a_go fi bi L k ai m c tr).2.2, p ∈ tr ∨
      (excludedA p.1.opcode = false ∧ excludedA p.2.opcode = false ∧
        instructions_equal p.1 p.2 = true) := by
  induction k with
  | zero => intro ai m c tr p hp; exact Or.inl hp
  | succ k ih =>
    intro ai m c tr p hp
    cases h0 : instrAt m fi bi ai with
    | none => simp only [cse_a_go, h0] at hp; exact Or.inl hp
    | some ia =>
      simp only [cse_a_go, h0] at hp
      by_cases hx : excludedA ia.opcode = true
      · rw [if_pos hx] at hp
        exact ih (ai + 1) m c tr p hp
      · rw [if_neg hx] at hp
        rcases ih (ai + 1) _ _ _ p hp with hmem | hgood
        · have hA : ∀ inst, instrAt m fi bi ai = some inst →
              excludedA inst.opcode = false := by
            intro inst h
            have he : ia = inst := Option.some_inj.1 (h0.symm.trans h)
            rw [← he]
            simpa using hx
          exact cse_b_go_trace (L - (ai + 1)) (ai + 1) m c tr hA p hmem
        · exact Or.inr hgood

theorem cse_blocks_go_trace {fi2 : Nat} (nb : Nat) :
    ∀ (bi0 : Nat) (m : Module) (c : Bool)
      (tr : List (Instruction × Instruction)),
    ∀ p ∈ (cse_blocks_go fi2 nb bi0 m c tr).2.2, p ∈ tr ∨
      (excludedA p.1.opcode = false ∧ excludedA p.2.opcode = false ∧
        instructions_equal p.1 p.2 = true) := by
  induction nb with
  | zero => intro bi0 m c tr p hp; exact Or.inl hp
  | succ nb ih =>
    intro bi0 m c tr p hp
    rw [cse_blocks_go] at hp
    rcases ih (bi0 + 1) _ _ _ p hp with hmem | hgood
    · exact cse_a_go_trace _ _ 0 m c tr p hmem
    · exact Or.inr hgood

theorem cse_funcs_go_trace (nf : Nat) :
    ∀ (fi0 : Nat) (m : Module) (c : Bool)
      (tr : List (Instruction × Instruction)),
    ∀ p ∈ (cse_funcs_go nf fi0 m c tr).2.2, p ∈ tr ∨
      (excludedA p.1.opcode = false ∧ excludedA p.2.opcode = false ∧
        instructions_equal p.1 p.2 = true) := by
  induction nf with
  | zero => intro fi0 m c tr p hp; exact Or.inl hp
  | succ nf ih =>
    intro fi0 m c tr p hp
    rw [cse_funcs_go] at hp
    rcases ih (fi0 + 1) _ _ _ p hp with hmem | hgood
    · exact cse_blocks_go_trace _ 0 m c tr p hmem
    · exact Or.inr hgood

/-- C7: every `replaceAllUsesWith(B, A)` that CSE performs has a source A
whose opcode is not call, store, alloca or a terminator, and a target B that
is equivalent to A (so B carries the same non-excluded opcode): no excluded
instruction ever has its uses replaced, and no instruction is redirected onto
an excluded instruction. -/
theorem cse_excluded_never_merged :
    ∀ (m : Module) (p : Instruction × Instruction), p ∈ (cse_run m).2.2 →
    excludedA p.1.opcode = false ∧ excludedA p.2.opcode = false ∧
      instructions_equal p.1 p.2 = true := by
  intro m p hp
  rcases cse_funcs_go_trace m.length 0 m false [] p hp with hmem | hgood
  · cases hmem
  · exact hgood

/-- Witness for C7 on the two-fence module's performed merge. -/
theorem cse_excluded_never_merged_witness :
    ((⟨0, .fence, []⟩, ⟨1, .fence, []⟩) : Instruction × Instruction) ∈
      (cse_run fenceModule).2.2 ∧
    excludedA Opcode.fence = false :=
  ⟨by decide,
   (cse_excluded_never_merged fenceModule (⟨0, .fence, []⟩, ⟨1, .fence, []⟩)
      (by decide)).1⟩

/-! ## The CSE load-merge criterion -/

/-- The address operand of a memory instruction: operand 0 of a load,
operand 1 of a store. -/
def addrOf (ins : Instruction) : Option Value :=
  if ins.opcode = .load then ins.operands[0]?
  else if ins.opcode = .store then ins.operands[1]? else none

theorem addrOf_rauwInst (old n : Value) (ins : Instruction) :
    addrOf (rauwInst old n ins) = (addrOf ins).map (subst old n) := by
  unfold addrOf
  have hop : (rauwInst old n ins).opcode = ins.opcode := rfl
  rw [hop]
  by_cases h1 : ins.opcode = Opcode.load
  · rw [if_pos h1, if_pos h1, rauwInst_operands_get]
  · rw [if_neg h1, if_neg h1]
    by_cases h2 : ins.opcode = Opcode.store
    · rw [if_pos h2, if_pos h2, rauwInst_operands_get]
    · rw [if_neg h2, if_neg h2]
      rfl

/-- Simulation between the current module and the module at pass start,
focused on one block: shapes agree, and in the focused block every
instruction keeps its identity, opcode, and address operand. -/
def BSim (m0 : Module) (fi0 bi0 : Nat) (m : Module) : Prop :=
  moduleShape m = moduleShape m0 ∧
  ∀ (ii : Nat) (X0 : Instruction), (blockAt m0 fi0 bi0)[ii]? = some X0 →
    ∃ X, (blockAt m fi0 bi0)[ii]? = some X ∧ X.id = X0.id ∧
      X.opcode = X0.opcode ∧ addrOf X = addrOf X0

theorem BSim_refl (m0 : Module) (fi0 bi0 : Nat) : BSim m0 fi0 bi0 m0 :=
  ⟨rfl, fun _ X0 h => ⟨X0, h, rfl, rfl, rfl⟩⟩

theorem list_eq_single_of_length_one {l : List α} {a : α}
    (hlen : l.length = 1) (h0 : l[0]? = some a) : l = [a] := by
  cases l with
  | nil => cases h0
  | cons x xs =>
    cases xs with
    | nil =>
      simp only [List.getElem?_cons_zero, Option.some_inj] at h0
      rw [h0]
    | cons y ys => simp at hlen

/-- In the focused block, a well-formed load is preserved exactly. -/
theorem BSim_load_eq {m0 m : Module} {fi0 bi0 : Nat}
    (hs : BSim m0 fi0 bi0 m) {ii : Nat} {X0 : Instruction} {a : Value}
    (h0 : (blockAt m0 fi0 bi0)[ii]? = some X0)
    (hl : X0.opcode = .load) (hops : X0.operands = [a]) :
    (blockAt m fi0 bi0)[ii]? = some X0 := by
  obtain ⟨X, hX, hid, hop, haddr⟩ := hs.2 ii X0 h0
  have hsh := instrAt_shape hs.1 fi0 bi0 ii
  unfold instrAt at hsh
  rw [hX, h0] at hsh
  simp only [Option.map_some', Option.some_inj] at hsh
  have hlen : X.operands.length = X0.operands.length :=
    congrArg (fun p => p.2.2) hsh
  have haddr2 : X.operands[0]? = some a := by
    unfold addrOf at haddr
    rw [hop, hl] at haddr
    rw [if_pos rfl, if_pos rfl] at haddr
    rw [haddr, hops]
    rfl
  have hX0 : X = X0 := by
    have hopsX : X.operands = [a] := by
      apply list_eq_single_of_length_one _ haddr2
      rw [hlen, hops]
      rfl
    cases X
    cases X0
    simp only [Instruction.mk.injEq] at hid hop hopsX hops ⊢
    exact ⟨hid, hop, by rw [hopsX, hops]⟩
  rw [← hX0]
  exact hX

theorem BSim_rauw {m0 m : Module} {fi0 bi0 : Nat}
    (hstab : ∀ X ∈ blockAt m0 fi0 bi0, ∀ v, addrOf X = some v →
      ∀ (fi' bi' ii' : Nat) (Y : Instruction), instrAt m0 fi' bi' ii' = some Y →
      v = Value.inst Y.id → excludedA Y.opcode = true)
    (hs : BSim m0 fi0 bi0 m)
    {fi2 bi2 bj : Nat} {ib : Instruction} (hib : instrAt m fi2 bi2 bj = some ib)
    (hexc : excludedA ib.opcode = false) (n : Value) :
    BSim m0 fi0 bi0 (rauwModule (.inst ib.id) n m) := by
  obtain ⟨Y0, hY0, hYid, hYop, _⟩ := instrAt_of_shape hs.1 hib
  refine ⟨(moduleShape_rauw _ _ m).trans hs.1, ?_⟩
  intro ii X0 h0
  obtain ⟨X, hX, hid, hop, haddr⟩ := hs.2 ii X0 h0
  refine ⟨rauwInst (.inst ib.id) n X, ?_, hid, hop, ?_⟩
  · rw [blockAt_rauw, List.getElem?_map, hX]
    rfl
  · rw [addrOf_rauwInst, haddr]
    cases hP : addrOf X0 with
    | none => rfl
    | some v =>
      simp only [Option.map_some', Option.some_inj]
      apply subst_of_ne
      intro he
      have hmem : X0 ∈ blockAt m0 fi0 bi0 := List.getElem?_mem h0
      have := hstab X0 hmem v hP fi2 bi2 bj Y0 hY0 (by rw [he, hYid])
      rw [hYop] at this
      rw [this] at hexc
      cases hexc

section CSESim

variable {m0 : Module} {fi0 bi0 : Nat}

/-- Abbreviation for the address-stability hypothesis of the focused block. -/
def AddrStable (m0 : Module) (fi0 bi0 : Nat) : Prop :=
  ∀ X ∈ blockAt m0 fi0 bi0, ∀ v, addrOf X = some v →
    ∀ (fi' bi' ii' : Nat) (Y : Instruction), instrAt m0 fi' bi' ii' = some Y →
    v = Value.inst Y.id → excludedA Y.opcode = true

theorem BSim_cse_b_go (hstab : AddrStable m0 fi0 bi0) {fi2 bi2 ai : Nat}
    (k : Nat) :
    ∀ (bj : Nat) (m : Module) (c : Bool) (tr : List (Instruction × Instruction)),
    (∀ inst, instrAt m fi2 bi2 ai = some inst → excludedA inst.opcode = false) →
    BSim m0 fi0 bi0 m →
    BSim m0 fi0 bi0 (cse_b_go fi2 bi2 ai k bj m c tr).1 := by
  induction k with
  | zero => intro bj m c tr _ hs; exact hs
  | succ k ih =>
    intro bj m c tr hA hs
    cases h0 : instrAt m fi2 bi2 ai with
    | none =>
      cases h1 : instrAt m fi2 bi2 bj with
      | none => simpa [cse_b_go, h0, h1] using hs
      | some ib => simpa [cse_b_go, h0, h1] using hs
    | some ia =>
      cases h1 : instrAt m fi2 bi2 bj with
      | none => simpa [cse_b_go, h0, h1] using hs
      | some ib =>
        simp only [cse_b_go, h0, h1]
        by_cases he : instructions_equal ia ib = true
        · rw [if_pos he]
          by_cases hl : (ia.opcode == Opcode.load &&
              cse_scan_store (blockAt m fi2 bi2) ai bj (get_load_address ia)) = true
          · rw [if_pos hl]
            exact ih (bj + 1) m c tr hA hs
          · rw [if_neg hl]
            have hexc : excludedA ib.opcode = false := by
              rw [instructions_equal_opcode he]
              exact hA ia h0
            exact ih (bj + 1) _ true _ (instrAt_rauw_opcode hA)
              (BSim_rauw hstab hs h1 hexc _)
        · rw [if_neg he]
          exact ih (bj + 1) m c tr hA hs

theorem BSim_cse_a_go (hstab : AddrStable m0 fi0 bi0) {fi2 bi2 L : Nat}
    (k : Nat) :
    ∀ (ai : Nat) (m : Module) (c : Bool) (tr : List (Instruction × Instruction)),
    BSim m0 fi0 bi0 m →
    BSim m0 fi0 bi0 (cse_a_go fi2 bi2 L k ai m c tr).1 := by
  induction k with
  | zero => intro ai m c tr hs; exact hs
  | succ k ih =>
    intro ai m c tr hs
    cases h0 : instrAt m fi2 bi2 ai with
    | none => simpa [cse_a_go, h0] using hs
    | some ia =>
      simp only [cse_a_go, h0]
      by_cases hx : excludedA ia.opcode = true
      · rw [if_pos hx]
        exact ih (ai + 1) m c tr hs
      · rw [if_neg hx]
        apply ih (ai + 1)
        apply BSim_cse_b_go hstab _ (ai + 1) m c tr _ hs
        intro inst h
        have he : ia = inst := Option.some_inj.1 (h0.symm.trans h)
        rw [← he]
        simpa using hx

theorem BSim_cse_blocks_go (hstab : AddrStable m0 fi0 bi0) {fi2 : Nat}
    (nb : Nat) :
    ∀ (bi2 : Nat) (m : Module) (c : Bool) (tr : List (Instruction × Instruction)),
    BSim m0 fi0 bi0 m →
    BSim m0 fi0 bi0 (cse_blocks_go fi2 nb bi2 m c tr).1 := by
  induction nb with
  | zero => intro bi2 m c tr hs; exact hs
  | succ nb ih =>
    intro bi2 m c tr hs
    rw [cse_blocks_go]
    exact ih (bi2 + 1) _ _ _ (BSim_cse_a_go hstab _ 0 m c tr hs)

theorem BSim_cse_funcs_go (hstab : AddrStable m0 fi0 bi0) (nf : Nat) :
    ∀ (fi2 : Nat) (m : Module) (c : Bool) (tr : List (Instruction × Instruction)),
    BSim m0 fi0 bi0 m →
    BSim m0 fi0 bi0 (cse_funcs_go nf fi2 m c tr).1 := by
  induction nf with
  | zero => intro fi2 m c tr hs; exact hs
  | succ nf ih =>
    intro fi2 m c tr hs
    rw [cse_funcs_go]
    exact ih (fi2 + 1) _ _ _ (BSim_cse_blocks_go hstab _ 0 m c tr hs)

end CSESim

theorem any_eq_of_pointwise {α : Type} {p q : α → Bool} :
    ∀ (l1 l2 : List α), l1.length = l2.length →
    (∀ (kk : Nat) (x y : α), l1[kk]? = some x → l2[kk]? = some y → p x = q y) →
    l1.any p = l2.any q := by
  intro l1
  induction l1 with
  | nil =>
    intro l2 hlen _
    cases l2 with
    | nil => rfl
    | cons y ys => simp at hlen
  | cons x xs ih =>
    intro l2 hlen hpt
    cases l2 with
    | nil => simp at hlen
    | cons y ys =>
      simp only [List.any_cons]
      have h0 : p x = q y := hpt 0 x y (by simp) (by simp)
      have htail : xs.any p = ys.any q := by
        apply ih ys (by simpa using hlen)
        intro kk a b ha hb
        exact hpt (kk + 1) a b (by simpa using ha) (by simpa using hb)
      rw [h0, htail]

theorem scan_invariant {m0 m : Module} {fi0 bi0 : Nat}
    (hs : BSim m0 fi0 bi0 m) (i j : Nat) (a? : Option Value) :
    cse_scan_store (blockAt m fi0 bi0) i j a? =
      cse_scan_store (blockAt m0 fi0 bi0) i j a? := by
  cases a? with
  | none => rfl
  | some a =>
    unfold cse_scan_store
    have hlen : (blockAt m fi0 bi0).length = (blockAt m0 fi0 bi0).length :=
      blockAt_length_of_shape hs.1 fi0 bi0
    apply any_eq_of_pointwise
    · simp [List.length_take, List.length_drop, hlen]
    · intro kk x y hx hy
      by_cases hk : kk < j - (i + 1)
      · rw [List.getElem?_take_of_lt hk, List.getElem?_drop] at hx hy
        obtain ⟨X, hX, hid, hop, haddr⟩ := hs.2 (i + 1 + kk) y hy
        have hxX : x = X := Option.some_inj.1 (hx.symm.trans hX)
        subst hxX
        rw [hop]
        by_cases hst : y.opcode = Opcode.store
        · have h1 : x.operands[1]? = y.operands[1]? := by
            unfold addrOf at haddr
            rw [hop, hst] at haddr
            have hnl : Opcode.store ≠ Opcode.load := by decide
            rw [if_neg hnl, if_neg hnl, if_pos rfl, if_pos rfl] at haddr
            exact haddr
          rw [hst, h1]
        · have h2 : (y.opcode == Opcode.store) = false := by
            simp [hst]
          rw [h2]
          simp
      · exfalso
        have hn : ((((blockAt m fi0 bi0).drop (i + 1)).take (j - (i + 1)))[kk]? :
            Option Instruction) = none := by
          apply List.getElem?_eq_none_iff.2
          have := List.length_take_le (j - (i + 1)) ((blockAt m fi0 bi0).drop (i + 1))
          omega
        rw [hn] at hx
        cases hx

theorem instructions_equal_operands {a b : Instruction}
    (h : instructions_equal a b = true) : a.operands = b.operands := by
  unfold instructions_equal at h
  simp only [Bool.and_eq_true, beq_iff_eq] at h
  exact h.2

section CSETarget

variable {m0 : Module} {fi0 bi0 i j : Nat} {A B : Instruction} {addr : Value}

/-- A nontarget row of the pairwise loops (one whose instruction does not have
`A`'s identity) never records the merge (A, B). -/
theorem cse_b_go_target_other
    (hOnlyA : ∀ (fi' bi' ii' : Nat) (Y : Instruction),
      instrAt m0 fi' bi' ii' = some Y → Y.id = A.id →
      fi' = fi0 ∧ bi' = bi0 ∧ ii' = i)
    {fi2 bi2 ai : Nat} (hrow : ¬(fi2 = fi0 ∧ bi2 = bi0 ∧ ai = i)) (k : Nat) :
    ∀ (bj : Nat) (m : Module) (c : Bool) (tr : List (Instruction × Instruction)),
    moduleShape m = moduleShape m0 →
    ((A, B) ∈ (cse_b_go fi2 bi2 ai k bj m c tr).2.2 ↔ (A, B) ∈ tr) := by
  induction k with
  | zero => intro bj m c tr _; exact Iff.rfl
  | succ k ih =>
    intro bj m c tr hsh
    cases h0 : instrAt m fi2 bi2 ai with
    | none =>
      cases h1 : instrAt m fi2 bi2 bj with
      | none => simp only [cse_b_go, h0, h1]
      | some ib => simp only [cse_b_go, h0, h1]
    | some ia =>
      have hiane : ia.id ≠ A.id := by
        intro he
        obtain ⟨Y0, hY0, hid, _, _⟩ := instrAt_of_shape hsh h0
        exact hrow (hOnlyA fi2 bi2 ai Y0 hY0 (hid.trans he))
      cases h1 : instrAt m fi2 bi2 bj with
      | none => simp only [cse_b_go, h0, h1]
      | some ib =>
        simp only [cse_b_go, h0, h1]
        by_cases he : instructions_equal ia ib = true
        · rw [if_pos he]
          by_cases hl : (ia.opcode == Opcode.load &&
              cse_scan_store (blockAt m fi2 bi2) ai bj (get_load_address ia)) = true
          · rw [if_pos hl]
            exact ih (bj + 1) m c tr hsh
          · rw [if_neg hl]
            rw [ih (bj + 1) _ true _ ((moduleShape_rauw _ _ m).trans hsh)]
            constructor
            · intro hmem
              rcases List.mem_append.1 hmem with h2 | h2
              · exact h2
              · exfalso
                have : (A, B) = (ia, ib) := by simpa using h2
                exact hiane (congrArg Instruction.id
                  (congrArg Prod.fst this)).symm
            · intro hmem
              exact List.mem_append.2 (Or.inl hmem)
        · rw [if_neg he]
          exact ih (bj + 1) m c tr hsh

/-- The B loop of the target row `i`: the pair (A, B) is recorded exactly when
the candidate index range reaches `j` and the original block has no store to
`A`'s address strictly between `i` and `j`. -/
theorem cse_b_go_target_row
    (hstab : AddrStable m0 fi0 bi0)
    (hAi : (blockAt m0 fi0 bi0)[i]? = some A)
    (hBj : (blockAt m0 fi0 bi0)[j]? = some B)
    (hAload : A.opcode = Opcode.load)
    (hAops : A.operands = [addr])
    (hAB : instructions_equal A B = true)
    (hOnlyB : ∀ (fi' bi' ii' : Nat) (Y : Instruction),
      instrAt m0 fi' bi' ii' = some Y → Y.id = B.id →
      fi' = fi0 ∧ bi' = bi0 ∧ ii' = j)
    (k : Nat) :
    ∀ (bj : Nat) (m : Module) (c : Bool) (tr : List (Instruction × Instruction)),
    BSim m0 fi0 bi0 m →
    ((A, B) ∈ (cse_b_go fi0 bi0 i k bj m c tr).2.2 ↔
      (A, B) ∈ tr ∨ (bj ≤ j ∧ j < bj + k ∧
        cse_scan_store (blockAt m0 fi0 bi0) i j (some addr) = false)) := by
  have hBload : B.opcode = Opcode.load :=
    (instructions_equal_opcode hAB).trans hAload
  have hBops : B.operands = [addr] :=
    (instructions_equal_operands hAB).symm.trans hAops
  have hjlen : j < (blockAt m0 fi0 bi0).length :=
    (List.getElem?_eq_some_iff.1 hBj).1
  have hga : get_load_address A = some addr := by
    rw [get_load_address, hAops]
    rfl
  induction k with
  | zero =>
    intro bj m c tr _
    simp only [cse_b_go]
    constructor
    · intro h; exact Or.inl h
    · rintro (h | ⟨h1, h2, h3⟩)
      · exact h
      · omega
  | succ k ih =>
    intro bj m c tr hs
    have hA2 : instrAt m fi0 bi0 i = some A :=
      BSim_load_eq hs hAi hAload hAops
    cases h1 : instrAt m fi0 bi0 bj with
    | none =>
      simp only [cse_b_go, hA2, h1]
      have hlen : (blockAt m fi0 bi0).length = (blockAt m0 fi0 bi0).length :=
        blockAt_length_of_shape hs.1 fi0 bi0
      have hbjlen : (blockAt m fi0 bi0).length ≤ bj := by
        have := List.getElem?_eq_none_iff.1 h1
        exact this
      constructor
      · intro h; exact Or.inl h
      · rintro (h | ⟨h2, h3, h4⟩)
        · exact h
        · omega
    | some ib =>
      by_cases hbj : bj = j
      · subst hbj
        have hB2 : instrAt m fi0 bi0 bj = some B :=
          BSim_load_eq hs hBj hBload hBops
        have hib : ib = B := Option.some_inj.1 (h1.symm.trans hB2)
        subst hib
        simp only [cse_b_go, hA2, h1, if_pos hAB]
        have hguard : (A.opcode == Opcode.load &&
            cse_scan_store (blockAt m fi0 bi0) i bj (get_load_address A)) =
            cse_scan_store (blockAt m0 fi0 bi0) i bj (some addr) := by
          rw [hga, scan_invariant hs, hAload]
          simp
        by_cases hscan :
            cse_scan_store (blockAt m0 fi0 bi0) i bj (some addr) = true
        · rw [if_pos (hguard.trans hscan)]
          rw [ih (bj + 1) m c tr hs]
          constructor
          · rintro (h | ⟨h2, h3, h4⟩)
            · exact Or.inl h
            · omega
          · rintro (h | ⟨h2, h3, h4⟩)
            · exact Or.inl h
            · rw [h4] at hscan; cases hscan
        · have hscanf :
              cse_scan_store (blockAt m0 fi0 bi0) i bj (some addr) = false := by
            simpa using hscan
          rw [if_neg (by rw [hguard, hscanf]; simp)]
          have hexcB : excludedA ib.opcode = false := by
            rw [hBload]; rfl
          rw [ih (bj + 1) _ true _ (BSim_rauw hstab hs h1 hexcB _)]
          constructor
          · intro _
            exact Or.inr ⟨le_refl _, by omega, hscanf⟩
          · intro _
            exact Or.inl (List.mem_append.2 (Or.inr (by simp)))
      · have hibne : ib.id ≠ B.id := by
          intro he
          obtain ⟨Y0, hY0, hid, _, _⟩ := instrAt_of_shape hs.1 h1
          exact hbj (hOnlyB fi0 bi0 bj Y0 hY0 (hid.trans he)).2.2
        have hshift : ∀ (P : Prop), ((A, B) ∈ tr ∨ (bj + 1 ≤ j ∧ j < bj + 1 + k ∧ P)) ↔
            ((A, B) ∈ tr ∨ (bj ≤ j ∧ j < bj + (k + 1) ∧ P)) := by
          intro P
          constructor
          · rintro (h | ⟨h2, h3, h4⟩)
            · exact Or.inl h
            · exact Or.inr ⟨by omega, by omega, h4⟩
          · rintro (h | ⟨h2, h3, h4⟩)
            · exact Or.inl h
            · exact Or.inr ⟨by omega, by omega, h4⟩
        simp only [cse_b_go, hA2, h1]
        by_cases he : instructions_equal A ib = true
        · rw [if_pos he]
          by_cases hl : (A.opcode == Opcode.load &&
              cse_scan_store (blockAt m fi0 bi0) i bj (get_load_address A)) = true
          · rw [if_pos hl]
            rw [ih (bj + 1) m c tr hs]
            exact hshift _
          · rw [if_neg hl]
            have hexcib : excludedA ib.opcode = false := by
              rw [(instructions_equal_opcode he).trans hAload]
              rfl
            rw [ih (bj + 1) _ true _ (BSim_rauw hstab hs h1 hexcib _)]
            have hmem : ((A, B) ∈ tr ++ [(A, ib)]) ↔ (A, B) ∈ tr := by
              constructor
              · intro h
                rcases List.mem_append.1 h with h2 | h2
                · exact h2
                · exfalso
                  have h3 : (A, B) = (A, ib) := by simpa using h2
                  exact hibne (congrArg Instruction.id
                    (congrArg Prod.snd h3)).symm
              · intro h
                exact List.mem_append.2 (Or.inl h)
            rw [hmem]
            exact hshift _
        · rw [if_neg he]
          rw [ih (bj + 1) m c tr hs]
          exact hshift _


/-- A foreign block (not the focused one) never records the merge (A, B). -/
theorem cse_a_go_target_other
    (hstab : AddrStable m0 fi0 bi0)
    (hOnlyA : ∀ (fi' bi' ii' : Nat) (Y : Instruction),
      instrAt m0 fi' bi' ii' = some Y → Y.id = A.id →
      fi' = fi0 ∧ bi' = bi0 ∧ ii' = i)
    {fi2 bi2 : Nat} (hblk : ¬(fi2 = fi0 ∧ bi2 = bi0)) (L k : Nat) :
    ∀ (ai : Nat) (m : Module) (c : Bool) (tr : List (Instruction × Instruction)),
    BSim m0 fi0 bi0 m →
    ((A, B) ∈ (cse_a_go fi2 bi2 L k ai m c tr).2.2 ↔ (A, B) ∈ tr) := by
  induction k with
  | zero => intro ai m c tr _; exact Iff.rfl
  | succ k ih =>
    intro ai m c tr hs
    cases h0 : instrAt m fi2 bi2 ai with
    | none => simp only [cse_a_go, h0]
    | some ia =>
      simp only [cse_a_go, h0]
      by_cases hx : excludedA ia.opcode = true
      · rw [if_pos hx]
        exact ih (ai + 1) m c tr hs
      · rw [if_neg hx]
        have hAexc : ∀ inst, instrAt m fi2 bi2 ai = some inst →
            excludedA inst.opcode = false := by
          intro inst h
          have he : ia = inst := Option.some_inj.1 (h0.symm.trans h)
          rw [← he]
          simpa using hx
        rw [ih (ai + 1) _ _ _ (BSim_cse_b_go hstab _ (ai + 1) m c tr hAexc hs)]
        exact cse_b_go_target_other hOnlyA (fun h => hblk ⟨h.1, h.2.1⟩) _
          (ai + 1) m c tr hs.1

/-- The A loop of the focused block: the pair (A, B) is recorded exactly when
the row range reaches `i` and the original block has no store to `A`'s
address strictly between `i` and `j`. -/
theorem cse_a_go_target
    (hstab : AddrStable m0 fi0 bi0)
    (hAi : (blockAt m0 fi0 bi0)[i]? = some A)
    (hBj : (blockAt m0 fi0 bi0)[j]? = some B)
    (hAload : A.opcode = Opcode.load)
    (hAops : A.operands = [addr])
    (hij : i < j)
    (hAB : instructions_equal A B = true)
    (hOnlyA : ∀ (fi' bi' ii' : Nat) (Y : Instruction),
      instrAt m0 fi' bi' ii' = some Y → Y.id = A.id →
      fi' = fi0 ∧ bi' = bi0 ∧ ii' = i)
    (hOnlyB : ∀ (fi' bi' ii' : Nat) (Y : Instruction),
      instrAt m0 fi' bi' ii' = some Y → Y.id = B.id →
      fi' = fi0 ∧ bi' = bi0 ∧ ii' = j)
    {L : Nat} (hL : L = (blockAt m0 fi0 bi0).length) (k : Nat) :
    ∀ (ai : Nat) (m : Module) (c : Bool) (tr : List (Instruction × Instruction)),
    BSim m0 fi0 bi0 m →
    ((A, B) ∈ (cse_a_go fi0 bi0 L k ai m c tr).2.2 ↔
      (A, B) ∈ tr ∨ (ai ≤ i ∧ i < ai + k ∧
        cse_scan_store (blockAt m0 fi0 bi0) i j (some addr) = false)) := by
  have hjlen : j < (blockAt m0 fi0 bi0).length :=
    (List.getElem?_eq_some_iff.1 hBj).1
  induction k with
  | zero =>
    intro ai m c tr _
    simp only [cse_a_go]
    constructor
    · intro h; exact Or.inl h
    · rintro (h | ⟨h1, h2, h3⟩)
      · exact h
      · omega
  | succ k ih =>
    intro ai m c tr hs
    have hlen : (blockAt m fi0 bi0).length = (blockAt m0 fi0 bi0).length :=
      blockAt_length_of_shape hs.1 fi0 bi0
    cases h0 : instrAt m fi0 bi0 ai with
    | none =>
      simp only [cse_a_go, h0]
      have hainone : (blockAt m fi0 bi0).length ≤ ai :=
        List.getElem?_eq_none_iff.1 h0
      constructor
      · intro h; exact Or.inl h
      · rintro (h | ⟨h1, h2, h3⟩)
        · exact h
        · omega
    | some ia =>
      simp only [cse_a_go, h0]
      by_cases hai : ai = i
      · subst hai
        have hA2 : instrAt m fi0 bi0 ai = some A :=
          BSim_load_eq hs hAi hAload hAops
        have hia : ia = A := Option.some_inj.1 (h0.symm.trans hA2)
        subst hia
        have hexc : excludedA ia.opcode = false := by
          rw [hAload]; rfl
        rw [if_neg (by rw [hexc]; exact Bool.false_ne_true)]
        have hAexc : ∀ inst, instrAt m fi0 bi0 ai = some inst →
            excludedA inst.opcode = false := by
          intro inst h
          have he : ia = inst := Option.some_inj.1 (h0.symm.trans h)
          rw [← he]
          exact hexc
        have hrow := cse_b_go_target_row hstab hAi hBj hAload hAops hAB hOnlyB
          (L - (ai + 1)) (ai + 1) m c tr hs
        have hrest := ih (ai + 1)
          (cse_b_go fi0 bi0 ai (L - (ai + 1)) (ai + 1) m c tr).1
          (cse_b_go fi0 bi0 ai (L - (ai + 1)) (ai + 1) m c tr).2.1
          (cse_b_go fi0 bi0 ai (L - (ai + 1)) (ai + 1) m c tr).2.2
          (BSim_cse_b_go hstab _ (ai + 1) m c tr hAexc hs)
        rw [hrest, hrow]
        constructor
        · rintro ((h | ⟨h1, h2, h3⟩) | ⟨h1, h2, h3⟩)
          · exact Or.inl h
          · exact Or.inr ⟨le_refl _, by omega, h3⟩
          · omega
        · rintro (h | ⟨h1, h2, h3⟩)
          · exact Or.inl (Or.inl h)
          · exact Or.inl (Or.inr ⟨by omega, by omega, h3⟩)
      · have hshift : ∀ (P : Prop),
            ((A, B) ∈ tr ∨ (ai + 1 ≤ i ∧ i < ai + 1 + k ∧ P)) ↔
            ((A, B) ∈ tr ∨ (ai ≤ i ∧ i < ai + (k + 1) ∧ P)) := by
          intro P
          constructor
          · rintro (h | ⟨h1, h2, h3⟩)
            · exact Or.inl h
            · exact Or.inr ⟨by omega, by omega, h3⟩
          · rintro (h | ⟨h1, h2, h3⟩)
            · exact Or.inl h
            · exact Or.inr ⟨by omega, by omega, h3⟩
        by_cases hx : excludedA ia.opcode = true
        · rw [if_pos hx]
          rw [ih (ai + 1) m c tr hs]
          exact hshift _
        · rw [if_neg hx]
          have hAexc : ∀ inst, instrAt m fi0 bi0 ai = some inst →
              excludedA inst.opcode = false := by
            intro inst h
            have he : ia = inst := Option.some_inj.1 (h0.symm.trans h)
            rw [← he]
            simpa using hx
          have hother := @cse_b_go_target_other m0 fi0 bi0 i A B hOnlyA
            fi0 bi0 ai (fun h => hai h.2.2) (L - (ai + 1)) (ai + 1) m c tr hs.1
          rw [ih (ai + 1) _ _ _ (BSim_cse_b_go hstab _ (ai + 1) m c tr hAexc hs)]
          rw [hother]
          exact hshift _


/-- Blocks strictly after the focused one (or in another function) never
record the merge (A, B). -/
theorem cse_blocks_go_target_other
    (hstab : AddrStable m0 fi0 bi0)
    (hOnlyA : ∀ (fi' bi' ii' : Nat) (Y : Instruction),
      instrAt m0 fi' bi' ii' = some Y → Y.id = A.id →
      fi' = fi0 ∧ bi' = bi0 ∧ ii' = i)
    {fi2 : Nat} (nb : Nat) :
    ∀ (bi2 : Nat) (m : Module) (c : Bool) (tr : List (Instruction × Instruction)),
    (fi2 ≠ fi0 ∨ bi0 < bi2) →
    BSim m0 fi0 bi0 m →
    ((A, B) ∈ (cse_blocks_go fi2 nb bi2 m c tr).2.2 ↔ (A, B) ∈ tr) := by
  induction nb with
  | zero => intro bi2 m c tr _ _; exact Iff.rfl
  | succ nb ih =>
    intro bi2 m c tr hne hs
    rw [cse_blocks_go]
    have hblk : ¬(fi2 = fi0 ∧ bi2 = bi0) := by
      rintro ⟨rfl, rfl⟩
      rcases hne with h | h
      · exact h rfl
      · omega
    have hne' : fi2 ≠ fi0 ∨ bi0 < bi2 + 1 := by
      rcases hne with h | h
      · exact Or.inl h
      · exact Or.inr (by omega)
    rw [ih (bi2 + 1) _ _ _ hne' (BSim_cse_a_go hstab _ 0 m c tr hs)]
    exact cse_a_go_target_other hstab hOnlyA hblk _ _ 0 m c tr hs

/-- The block loop of the focused function: the merge (A, B) is recorded
exactly when the loop reaches the focused block and the scan condition
holds. -/
theorem cse_blocks_go_target
    (hstab : AddrStable m0 fi0 bi0)
    (hAi : (blockAt m0 fi0 bi0)[i]? = some A)
    (hBj : (blockAt m0 fi0 bi0)[j]? = some B)
    (hAload : A.opcode = Opcode.load)
    (hAops : A.operands = [addr])
    (hij : i < j)
    (hAB : instructions_equal A B = true)
    (hOnlyA : ∀ (fi' bi' ii' : Nat) (Y : Instruction),
      instrAt m0 fi' bi' ii' = some Y → Y.id = A.id →
      fi' = fi0 ∧ bi' = bi0 ∧ ii' = i)
    (hOnlyB : ∀ (fi' bi' ii' : Nat) (Y : Instruction),
      instrAt m0 fi' bi' ii' = some Y → Y.id = B.id →
      fi' = fi0 ∧ bi' = bi0 ∧ ii' = j)
    (nb : Nat) :
    ∀ (bi2 : Nat) (m : Module) (c : Bool) (tr : List (Instruction × Instruction)),
    BSim m0 fi0 bi0 m →
    ((A, B) ∈ (cse_blocks_go fi0 nb bi2 m c tr).2.2 ↔
      (A, B) ∈ tr ∨ (bi2 ≤ bi0 ∧ bi0 < bi2 + nb ∧
        cse_scan_store (blockAt m0 fi0 bi0) i j (some addr) = false)) := by
  have hilen : i < (blockAt m0 fi0 bi0).length :=
    (List.getElem?_eq_some_iff.1 hAi).1
  induction nb with
  | zero =>
    intro bi2 m c tr _
    simp only [cse_blocks_go]
    constructor
    · intro h; exact Or.inl h
    · rintro (h | ⟨h1, h2, h3⟩)
      · exact h
      · omega
  | succ nb ih =>
    intro bi2 m c tr hs
    rw [cse_blocks_go]
    by_cases hbi : bi2 = bi0
    · subst hbi
      have hL : (blockAt m fi0 bi2).length = (blockAt m0 fi0 bi2).length :=
        blockAt_length_of_shape hs.1 fi0 bi2
      have hrow := cse_a_go_target hstab hAi hBj hAload hAops hij hAB hOnlyA
        hOnlyB hL (blockAt m fi0 bi2).length 0 m c tr hs
      have hrest := @cse_blocks_go_target_other m0 fi0 bi2 i A B hstab hOnlyA
        fi0 nb (bi2 + 1)
        (cse_a_go fi0 bi2 (blockAt m fi0 bi2).length (blockAt m fi0 bi2).length
          0 m c tr).1
        (cse_a_go fi0 bi2 (blockAt m fi0 bi2).length (blockAt m fi0 bi2).length
          0 m c tr).2.1
        (cse_a_go fi0 bi2 (blockAt m fi0 bi2).length (blockAt m fi0 bi2).length
          0 m c tr).2.2
        (Or.inr (by omega))
        (BSim_cse_a_go hstab _ 0 m c tr hs)
      rw [hrest, hrow]
      constructor
      · rintro (h | ⟨h1, h2, h3⟩)
        · exact Or.inl h
        · exact Or.inr ⟨le_refl _, by omega, h3⟩
      · rintro (h | ⟨h1, h2, h3⟩)
        · exact Or.inl h
        · exact Or.inr ⟨by omega, by omega, h3⟩
    · have hblk : ¬(fi0 = fi0 ∧ bi2 = bi0) := fun h => hbi h.2
      have hother := cse_a_go_target_other (B := B) hstab hOnlyA hblk
        (blockAt m fi0 bi2).length (blockAt m fi0 bi2).length 0 m c tr hs
      rw [ih (bi2 + 1) _ _ _ (BSim_cse_a_go hstab _ 0 m c tr hs), hother]
      constructor
      · rintro (h | ⟨h1, h2, h3⟩)
        · exact Or.inl h
        · exact Or.inr ⟨by omega, by omega, h3⟩
      · rintro (h | ⟨h1, h2, h3⟩)
        · exact Or.inl h
        · exact Or.inr ⟨by omega, by omega, h3⟩

/-- Functions strictly after the focused one never record the merge. -/
theorem cse_funcs_go_target_other
    (hstab : AddrStable m0 fi0 bi0)
    (hOnlyA : ∀ (fi' bi' ii' : Nat) (Y : Instruction),
      instrAt m0 fi' bi' ii' = some Y → Y.id = A.id →
      fi' = fi0 ∧ bi' = bi0 ∧ ii' = i)
    (nf : Nat) :
    ∀ (fi2 : Nat) (m : Module) (c : Bool) (tr : List (Instruction × Instruction)),
    fi0 < fi2 →
    BSim m0 fi0 bi0 m →
    ((A, B) ∈ (cse_funcs_go nf fi2 m c tr).2.2 ↔ (A, B) ∈ tr) := by
  induction nf with
  | zero => intro fi2 m c tr _ _; exact Iff.rfl
  | succ nf ih =>
    intro fi2 m c tr hlt hs
    rw [cse_funcs_go]
    rw [ih (fi2 + 1) _ _ _ (by omega) (BSim_cse_blocks_go hstab _ 0 m c tr hs)]
    exact cse_blocks_go_target_other hstab hOnlyA _ 0 m c tr
      (Or.inl (by omega)) hs

/-- The function loop: the merge (A, B) is recorded exactly when the loop
reaches the focused function and the scan condition holds. -/
theorem cse_funcs_go_target
    (hstab : AddrStable m0 fi0 bi0)
    (hAi : (blockAt m0 fi0 bi0)[i]? = some A)
    (hBj : (blockAt m0 fi0 bi0)[j]? = some B)
    (hAload : A.opcode = Opcode.load)
    (hAops : A.operands = [addr])
    (hij : i < j)
    (hAB : instructions_equal A B = true)
    (hOnlyA : ∀ (fi' bi' ii' : Nat) (Y : Instruction),
      instrAt m0 fi' bi' ii' = some Y → Y.id = A.id →
      fi' = fi0 ∧ bi' = bi0 ∧ ii' = i)
    (hOnlyB : ∀ (fi' bi' ii' : Nat) (Y : Instruction),
      instrAt m0 fi' bi' ii' = some Y → Y.id = B.id →
      fi' = fi0 ∧ bi' = bi0 ∧ ii' = j)
    (nf : Nat) :
    ∀ (fi2 : Nat) (m : Module) (c : Bool) (tr : List (Instruction × Instruction)),
    BSim m0 fi0 bi0 m →
    ((A, B) ∈ (cse_funcs_go nf fi2 m c tr).2.2 ↔
      (A, B) ∈ tr ∨ (fi2 ≤ fi0 ∧ fi0 < fi2 + nf ∧
        cse_scan_store (blockAt m0 fi0 bi0) i j (some addr) = false)) := by
  have hAmem : A ∈ blockAt m0 fi0 bi0 := List.getElem?_mem hAi
  obtain ⟨hfi0, hbi0⟩ := mem_blockAt_pos hAmem
  induction nf with
  | zero =>
    intro fi2 m c tr _
    simp only [cse_funcs_go]
    constructor
    · intro h; exact Or.inl h
    · rintro (h | ⟨h1, h2, h3⟩)
      · exact h
      · omega
  | succ nf ih =>
    intro fi2 m c tr hs
    rw [cse_funcs_go]
    by_cases hfi : fi2 = fi0
    · subst hfi
      have hnb : ((m[fi2]?).getD []).length = ((m0[fi2]?).getD []).length :=
        funcLen_of_shape hs.1 fi2
      have hrow := cse_blocks_go_target hstab hAi hBj hAload hAops hij hAB
        hOnlyA hOnlyB ((m[fi2]?).getD []).length 0 m c tr hs
      have hrest := @cse_funcs_go_target_other m0 fi2 bi0 i A B hstab hOnlyA
        nf (fi2 + 1)
        (cse_blocks_go fi2 ((m[fi2]?).getD []).length 0 m c tr).1
        (cse_blocks_go fi2 ((m[fi2]?).getD []).length 0 m c tr).2.1
        (cse_blocks_go fi2 ((m[fi2]?).getD []).length 0 m c tr).2.2
        (by omega)
        (BSim_cse_blocks_go hstab _ 0 m c tr hs)
      rw [hrest, hrow]
      constructor
      · rintro (h | ⟨h1, h2, h3⟩)
        · exact Or.inl h
        · exact Or.inr ⟨le_refl _, by omega, h3⟩
      · rintro (h | ⟨h1, h2, h3⟩)
        · exact Or.inl h
        · refine Or.inr ⟨Nat.zero_le _, ?_, h3⟩
          omega
    · have hother := cse_blocks_go_target_other (B := B) hstab hOnlyA
        ((m[fi2]?).getD []).length 0 m c tr (Or.inl hfi) hs
      rw [ih (fi2 + 1) _ _ _ (BSim_cse_blocks_go hstab _ 0 m c tr hs), hother]
      constructor
      · rintro (h | ⟨h1, h2, h3⟩)
        · exact Or.inl h
        · exact Or.inr ⟨by omega, by omega, h3⟩
      · rintro (h | ⟨h1, h2, h3⟩)
        · exact Or.inl h
        · exact Or.inr ⟨by omega, by omega, h3⟩

/-- **C6.** For a pair of equivalent load instructions A before B in the same
block (positions i < j), provided no other instruction in the module shares
their ids and no address operand in the block names a non-excluded
instruction, CSE performs replaceAllUsesWith(B, A) — i.e. records the merge
(A, B) in its trace — if and only if no instruction strictly between A and B
in program order is a store whose address operand is identical, by Value
identity, to A's address operand. -/
theorem cse_load_merge_iff
    (hstab : AddrStable m0 fi0 bi0)
    (hAi : (blockAt m0 fi0 bi0)[i]? = some A)
    (hBj : (blockAt m0 fi0 bi0)[j]? = some B)
    (hAload : A.opcode = Opcode.load)
    (hAops : A.operands = [addr])
    (hij : i < j)
    (hAB : instructions_equal A B = true)
    (hOnlyA : ∀ (fi' bi' ii' : Nat) (Y : Instruction),
      instrAt m0 fi' bi' ii' = some Y → Y.id = A.id →
      fi' = fi0 ∧ bi' = bi0 ∧ ii' = i)
    (hOnlyB : ∀ (fi' bi' ii' : Nat) (Y : Instruction),
      instrAt m0 fi' bi' ii' = some Y → Y.id = B.id →
      fi' = fi0 ∧ bi' = bi0 ∧ ii' = j) :
    (A, B) ∈ (cse_run m0).2.2 ↔
      cse_scan_store (blockAt m0 fi0 bi0) i j (some addr) = false := by
  have hAmem : A ∈ blockAt m0 fi0 bi0 := List.getElem?_mem hAi
  obtain ⟨hfi0, hbi0⟩ := mem_blockAt_pos hAmem
  have h := cse_funcs_go_target hstab hAi hBj hAload hAops hij hAB hOnlyA
    hOnlyB m0.length 0 m0 false [] (BSim_refl m0 fi0 bi0)
  simp only [cse_run]
  rw [h]
  constructor
  · rintro (h1 | ⟨_, _, h3⟩)
    · exact absurd h1 (List.not_mem_nil _)
    · exact h3
  · intro hscan
    exact Or.inr ⟨Nat.zero_le _, by omega, hscan⟩

end CSETarget

/-- The CSE-merge example of the spec with no intervening store:
`[ %1 = load addr_a; %2 = mul %1, 5; %3 = load addr_a; ret %3 ]`. -/
def cseMulModule : Module :=
  [[[⟨0, .load, [.param 0]⟩,
     ⟨1, .mul, [.inst 0, .const 32 5]⟩,
     ⟨2, .load, [.param 0]⟩,
     ⟨3, .ret, [.inst 2]⟩]]]

/-- The CSE-safety example of the spec with an intervening store to the same
address: `[ %1 = load addr_a; store addr_a, 7; %2 = load addr_a; ret %2 ]`. -/
def cseStoreModule : Module :=
  [[[⟨0, .load, [.param 0]⟩,
     ⟨1, .store, [.const 32 7, .param 0]⟩,
     ⟨2, .load, [.param 0]⟩,
     ⟨3, .ret, [.inst 2]⟩]]]

theorem cse_load_merge_iff_witness :
    (⟨0, .load, [.param 0]⟩, (⟨2, .load, [.param 0]⟩ : Instruction)) ∈
      (cse_run cseMulModule).2.2 ∧
    (⟨0, .load, [.param 0]⟩, (⟨2, .load, [.param 0]⟩ : Instruction)) ∉
      (cse_run cseStoreModule).2.2 := by
  have hstab1 : AddrStable cseMulModule 0 0 := by
    intro X hX v hv fi' bi' ii' Y hY hvY
    simp [blockAt, cseMulModule] at hX
    rcases hX with rfl | rfl | rfl | rfl <;> simp [addrOf] at hv <;>
      subst hv <;> simp at hvY
  have hstab2 : AddrStable cseStoreModule 0 0 := by
    intro X hX v hv fi' bi' ii' Y hY hvY
    simp [blockAt, cseStoreModule] at hX
    rcases hX with rfl | rfl | rfl | rfl <;> simp [addrOf] at hv <;>
      subst hv <;> simp at hvY
  have honlyA1 : ∀ (fi' bi' ii' : Nat) (Y : Instruction),
      instrAt cseMulModule fi' bi' ii' = some Y →
      Y.id = Instruction.id ⟨0, .load, [.param 0]⟩ →
      fi' = 0 ∧ bi' = 0 ∧ ii' = 0 := by
    intro fi' bi' ii' Y h hid
    rcases fi' with _ | fi'
    · rcases bi' with _ | bi'
      · rcases ii' with _ | ii'
        · exact ⟨rfl, rfl, rfl⟩
        · rcases ii' with _ | ii'
          · simp [instrAt, blockAt, cseMulModule] at h
            rw [← h] at hid
            simp at hid
          · rcases ii' with _ | ii'
            · simp [instrAt, blockAt, cseMulModule] at h
              rw [← h] at hid
              simp at hid
            · rcases ii' with _ | ii'
              · simp [instrAt, blockAt, cseMulModule] at h
                rw [← h] at hid
                simp at hid
              · simp [instrAt, blockAt, cseMulModule] at h
      · simp [instrAt, blockAt, cseMulModule] at h
    · simp [instrAt, blockAt, cseMulModule] at h
  have honlyB1 : ∀ (fi' bi' ii' : Nat) (Y : Instruction),
      instrAt cseMulModule fi' bi' ii' = some Y →
      Y.id = Instruction.id ⟨2, .load, [.param 0]⟩ →
      fi' = 0 ∧ bi' = 0 ∧ ii' = 2 := by
    intro fi' bi' ii' Y h hid
    rcases fi' with _ | fi'
    · rcases bi' with _ | bi'
      · rcases ii' with _ | ii'
        · simp [instrAt, blockAt, cseMulModule] at h
          rw [← h] at hid
          simp at hid
        · rcases ii' with _ | ii'
          · simp [instrAt, blockAt, cseMulModule] at h
            rw [← h] at hid
            simp at hid
          · rcases ii' with _ | ii'
            · exact ⟨rfl, rfl, rfl⟩
            · rcases ii' with _ | ii'
              · simp [instrAt, blockAt, cseMulModule] at h
                rw [← h] at hid
                simp at hid
              · simp [instrAt, blockAt, cseMulModule] at h
      · simp [instrAt, blockAt, cseMulModule] at h
    · simp [instrAt, blockAt, cseMulModule] at h
  have honlyA2 : ∀ (fi' bi' ii' : Nat) (Y : Instruction),
      instrAt cseStoreModule fi' bi' ii' = some Y →
      Y.id = Instruction.id ⟨0, .load, [.param 0]⟩ →
      fi' = 0 ∧ bi' = 0 ∧ ii' = 0 := by
    intro fi' bi' ii' Y h hid
    rcases fi' with _ | fi'
    · rcases bi' with _ | bi'
      · rcases ii' with _ | ii'
        · exact ⟨rfl, rfl, rfl⟩
        · rcases ii' with _ | ii'
          · simp [instrAt, blockAt, cseStoreModule] at h
            rw [← h] at hid
            simp at hid
          · rcases ii' with _ | ii'
            · simp [instrAt, blockAt, cseStoreModule] at h
              rw [← h] at hid
              simp at hid
            · rcases ii' with _ | ii'
              · simp [instrAt, blockAt, cseStoreModule] at h
                rw [← h] at hid
                simp at hid
              · simp [instrAt, blockAt, cseStoreModule] at h
      · simp [instrAt, blockAt, cseStoreModule] at h
    · simp [instrAt, blockAt, cseStoreModule] at h
  have honlyB2 : ∀ (fi' bi' ii' : Nat) (Y : Instruction),
      instrAt cseStoreModule fi' bi' ii' = some Y →
      Y.id = Instruction.id ⟨2, .load, [.param 0]⟩ →
      fi' = 0 ∧ bi' = 0 ∧ ii' = 2 := by
    intro fi' bi' ii' Y h hid
    rcases fi' with _ | fi'
    · rcases bi' with _ | bi'
      · rcases ii' with _ | ii'
        · simp [instrAt, blockAt, cseStoreModule] at h
          rw [← h] at hid
          simp at hid
        · rcases ii' with _ | ii'
          · simp [instrAt, blockAt, cseStoreModule] at h
            rw [← h] at hid
            simp at hid
          · rcases ii' with _ | ii'
            · exact ⟨rfl, rfl, rfl⟩
            · rcases ii' with _ | ii'
              · simp [instrAt, blockAt, cseStoreModule] at h
                rw [← h] at hid
                simp at hid
              · simp [instrAt, blockAt, cseStoreModule] at h
      · simp [instrAt, blockAt, cseStoreModule] at h
    · simp [instrAt, blockAt, cseStoreModule] at h
  constructor
  · exact (@cse_load_merge_iff cseMulModule 0 0 0 2
      ⟨0, .load, [.param 0]⟩ ⟨2, .load, [.param 0]⟩ (Value.param 0)
      hstab1 (by decide) (by decide) (by decide)
      (by decide) (by decide) (by decide) honlyA1 honlyB1).mpr (by decide)
  · intro hmem
    have hscan := (@cse_load_merge_iff cseStoreModule 0 0 0 2
      ⟨0, .load, [.param 0]⟩ ⟨2, .load, [.param 0]⟩ (Value.param 0)
      hstab2 (by decide) (by decide)
      (by decide) (by decide) (by decide) (by decide) honlyA2 honlyB2).mp hmem
    exact absurd hscan (by decide)

end MiniC
